import Mathlib

/-!
Verification development for the koru_find interactive file-name search
server.  The Rust sources under src/ are shallowly embedded:

* pattern text is a `List Char` (byte and char indices coincide on the
  ASCII inputs exercised here); haystacks are byte lists (`List Nat`);
* the `regex::bytes::Regex` engine is embedded as an executable regex
  AST with Brzozowski-derivative matching; `make_regex` becomes a total
  parser returning `Option`, so a compile failure is a parse failure
  (the 50 kB size limit and a few exotic syntax forms — anchors,
  counted repetition, `\w`-style classes — are not modelled; the
  sources produced by `fuzzy_build` and the examples used in the
  theorems stay inside the modelled fragment);
* `swap_greed` does not affect match existence and is dropped;
  `case_insensitive` is kept as an ASCII fold flag;
* the `Pattern` wrapper carries the version counter; locks and atomics
  collapse to plain state since each theorem speaks about one
  linearized operation;
* the window's `BTreeSet<Bytes>` is its ascending element list, and the
  outbound channel is the list of frames an operation emits; a failed
  send is a boolean input.
-/

/-- Server error kinds, from `src/server/walker.rs` (`enum Error`). -/
inductive SrvError
  | invalidCommand
  | protocolError
  | utf8Error
  | ioError
  | eof
  | invalidArgument
  | notADirectory
  | unknownCommand (s : String)
  | cdInvalid
deriving DecidableEq, Repr

/-- Byte-level regular expression AST: the fragment of `regex::bytes`
syntax that the pattern engine emits.  `void` matches nothing and only
arises from derivatives, never from parsing. -/
inductive RE
  | void
  | eps
  | chr (b : Nat)
  | cls (neg : Bool) (ranges : List (Nat × Nat))
  | alt (a b : RE)
  | seq (a b : RE)
  | star (a : RE)
deriving DecidableEq, Repr

def RE.nullable : RE → Bool
  | .void => false
  | .eps => true
  | .chr _ => false
  | .cls _ _ => false
  | .alt a b => a.nullable || b.nullable
  | .seq a b => a.nullable && b.nullable
  | .star _ => true

def clsMem (b : Nat) (rs : List (Nat × Nat)) : Bool :=
  rs.any fun r => decide (r.1 ≤ b) && decide (b ≤ r.2)

def RE.deriv : RE → Nat → RE
  | .void, _ => .void
  | .eps, _ => .void
  | .chr c, b => if c = b then .eps else .void
  | .cls neg rs, b => if clsMem b rs != neg then .eps else .void
  | .alt a c, b => .alt (a.deriv b) (c.deriv b)
  | .seq a c, b =>
    if a.nullable then .alt (.seq (a.deriv b) c) (c.deriv b) else .seq (a.deriv b) c
  | .star a, b => .seq (a.deriv b) (.star a)

/-- Does some prefix of the byte list match `r`? -/
def RE.matchPfx : RE → List Nat → Bool
  | r, [] => r.nullable
  | r, b :: bs => r.nullable || (r.deriv b).matchPfx bs

/-- Unanchored search, the semantics of `Regex::is_match`. -/
def RE.search : RE → List Nat → Bool
  | r, [] => r.nullable
  | r, b :: bs => r.matchPfx (b :: bs) || r.search bs

/-- UTF-8 encoding of a char, as `char::encode_utf8` produces. -/
def encodeChar (c : Char) : List Nat :=
  let n := c.toNat
  if n < 128 then [n]
  else if n < 2048 then [192 + n / 64, 128 + n % 64]
  else if n < 65536 then [224 + n / 4096, 128 + n / 64 % 64, 128 + n % 64]
  else [240 + n / 262144, 128 + n / 4096 % 64, 128 + n / 64 % 64, 128 + n % 64]

/-- The meta characters `regex::escape` prefixes with a backslash. -/
def metaChars : List Char :=
  ['\\', '.', '+', '*', '?', '(', ')', '|', '[', ']',
   Char.ofNat 123, Char.ofNat 125, '^', '$', '#', '&', '-', '~']

/-- Model of `regex::escape` for a single char. -/
def regexEscape (c : Char) : List Char :=
  if c ∈ metaChars then ['\\', c] else [c]

/-- `fuzzy_build` from `src/pattern.rs`: each char `c` becomes
`regex_escape(c)[^/]*`, `/` becomes `/.*`; `\` escapes, `\s` is a
space; returns the trailing-escape carry and the regex source. -/
def fuzzy_build : Bool → List Char → Bool × List Char
  | esc, [] => (esc, [])
  | esc, c :: cs =>
    if esc || c ≠ '\\' then
      let c := if esc && c = 's' then ' ' else c
      let rest := fuzzy_build false cs
      let atom := if c = '/' then ['/', '.', '*'] else regexEscape c ++ ['[', '^', '/', ']', '*']
      (rest.1, atom ++ rest.2)
    else fuzzy_build true cs

/-- `regex_build` from `src/pattern.rs`: strips a trailing backslash
into the carry flag and prepends a backslash when the carry was set. -/
def regex_build (esc : Bool) (t : List Char) : Bool × List Char :=
  let lesc := t.getLast? = some '\\'
  let t := if lesc then t.dropLast else t
  (lesc, if esc then '\\' :: t else t)

def quantChars : List Char := ['*', '+', '?']

/-- Escapable char in the modelled regex fragment: `\n`, `\t`, `\r`,
and any escaped ASCII punctuation; escaped alphanumerics are rejected
(classes such as `\s` are outside the modelled fragment). -/
def escByte (c : Char) : Option Nat :=
  if c = 'n' then some 10
  else if c = 't' then some 9
  else if c = 'r' then some 13
  else if c.toNat < 128 && !c.isAlphanum then some c.toNat
  else none

def classAtom (c : Char) (r : List Char) : Option (Nat × List Char) :=
  if c = '\\' then
    match r with
    | d :: r2 => (escByte d).map fun b => (b, r2)
    | [] => none
  else if c.toNat < 128 then some (c.toNat, r) else none

def parseClassBody : Nat → List Char → Bool → List (Nat × Nat) → Option (RE × List Char)
  | 0, _, _, _ => none
  | _ + 1, [], _, _ => none
  | f + 1, c :: r, neg, acc =>
    if c = ']' then some (.cls neg acc, r)
    else
      match classAtom c r with
      | none => none
      | some (lo, r1) =>
        match r1 with
        | '-' :: ']' :: r2 => some (.cls neg (acc ++ [(lo, lo), (45, 45)]), r2)
        | '-' :: d :: r2 =>
          match classAtom d r2 with
          | none => none
          | some (hi, r3) =>
            if lo ≤ hi then parseClassBody f r3 neg (acc ++ [(lo, hi)]) else none
        | _ => parseClassBody f r1 neg (acc ++ [(lo, lo)])

/-- Parse a character class after the opening `[`. -/
def parseClass (f : Nat) (s : List Char) : Option (RE × List Char) :=
  let p := match s with
    | '^' :: r => (true, r)
    | _ => (false, s)
  match p.2 with
  | ']' :: r => parseClassBody f r p.1 [(93, 93)]
  | s1 => parseClassBody f s1 p.1 []

/-- Chars that cannot begin an atom in the modelled fragment. -/
def badAtomChars : List Char := [')', '|', '*', '+', '?', '^', '$', Char.ofNat 123]

def reOfList : List Nat → RE
  | [] => .eps
  | [b] => .chr b
  | b :: bs => .seq (.chr b) (reOfList bs)

/-- Reject a second quantifier after one (optionally lazy) quantifier. -/
def finishQuant (a : RE) (r : List Char) : Option (RE × List Char) :=
  match r with
  | '?' :: r2 =>
    (match r2 with
     | c :: _ => if c ∈ quantChars || c = Char.ofNat 123 then none else some (a, r2)
     | [] => some (a, r2))
  | c :: _ => if c ∈ quantChars || c = Char.ofNat 123 then none else some (a, r)
  | [] => some (a, r)

mutual

def parseAltR : Nat → List Char → Option (RE × List Char)
  | 0, _ => none
  | f + 1, s =>
    match parseSeqR f s with
    | none => none
    | some (a, s1) =>
      match s1 with
      | '|' :: s2 =>
        (match parseAltR f s2 with
         | none => none
         | some (b, s3) => some (.alt a b, s3))
      | _ => some (a, s1)

def parseSeqR : Nat → List Char → Option (RE × List Char)
  | 0, _ => none
  | _ + 1, [] => some (.eps, [])
  | f + 1, c :: s =>
    if c = ')' || c = '|' then some (.eps, c :: s)
    else
      match parseRep f (c :: s) with
      | none => none
      | some (a, s1) =>
        match parseSeqR f s1 with
        | none => none
        | some (b, s2) => some (.seq a b, s2)

def parseRep : Nat → List Char → Option (RE × List Char)
  | 0, _ => none
  | f + 1, s =>
    match parseAtom f s with
    | none => none
    | some (a, s1) =>
      match s1 with
      | '*' :: r => finishQuant (.star a) r
      | '+' :: r => finishQuant (.seq a (.star a)) r
      | '?' :: r => finishQuant (.alt a .eps) r
      | c :: _ => if c = Char.ofNat 123 then none else some (a, s1)
      | [] => some (a, s1)

def parseAtom : Nat → List Char → Option (RE × List Char)
  | 0, _ => none
  | f + 1, s =>
    match s with
    | '(' :: r =>
      (match parseAltR f r with
       | none => none
       | some (a, r2) =>
         match r2 with
         | ')' :: r3 => some (a, r3)
         | _ => none)
    | '[' :: r => parseClass f r
    | '.' :: r => some (.cls true [(10, 10)], r)
    | '\\' :: c :: r =>
      (match escByte c with
       | some b => some (.chr b, r)
       | none => none)
    | ['\\'] => none
    | c :: r =>
      if c ∈ badAtomChars then none
      else if c.toNat < 128 then some (.chr c.toNat, r)
      else some (reOfList (encodeChar c), r)
    | [] => none

end

def parseRegex (s : List Char) : Option RE :=
  match parseAltR (4 * s.length + 8) s with
  | some (r, []) => some r
  | _ => none

/-- A compiled regex: the raw source (what `Regex::to_string` returns),
the case-insensitivity flag chosen by `make_regex`, and the AST. -/
structure CompiledRegex where
  src : List Char
  ci : Bool
  re : RE
deriving DecidableEq, Repr

def strLower (s : List Char) : List Char := s.map Char.toLower

/-- Model of `make_regex` from `src/pattern.rs`: case-insensitive iff
the source equals its lowercase form; compile failure is `none`. -/
def makeRegex (s : List Char) : Option CompiledRegex :=
  (parseRegex s).map fun r => { src := s, ci := s == strLower s, re := r }

def foldByte (b : Nat) : Nat := if 65 ≤ b && b ≤ 90 then b + 32 else b

/-- `Regex::is_match`; for a case-insensitive regex the haystack is
ASCII-folded (the source is already lowercase by construction). -/
def CompiledRegex.isMatch (cr : CompiledRegex) (h : List Nat) : Bool :=
  RE.search cr.re (if cr.ci then h.map foldByte else h)

/-- The `Regex::new("")` placeholder pushed when a new regex term fails
to compile (default builder: case-sensitive). -/
def emptyRegex : CompiledRegex := { src := [], ci := false, re := .eps }

/-- `AddMode` from `src/pattern.rs`. -/
inductive AddMode
  | new
  | fuzzy
  | regex
  | startsWith
  | endsWith
deriving DecidableEq, Repr

/-- `PatternScope` from `src/pattern.rs`. -/
inductive PatternScope
  | narrow
  | widen
  | change
deriving DecidableEq, Repr

/-- The `Matcher` struct from `src/pattern.rs`.  `skip_pfx` embeds the
field the source calls by the prefix-skipping name. -/
structure Matcher where
  patterns : List CompiledRegex
  starts_with : Option (List Nat)
  ends_with : Option (List Nat)
  mode : AddMode
  escape : Bool
  text : List Char
  bad_regex : Option (List Char)
  skip_pfx : Nat
deriving DecidableEq, Repr

/-- `Matcher::default()` (derived `Default`). -/
def Matcher.default : Matcher :=
  { patterns := [], starts_with := none, ends_with := none, mode := .new,
    escape := false, text := [], bad_regex := none, skip_pfx := 0 }

/-- `Matcher::unescape_extend`: decode `\`-escapes (with `\s` a space)
into the byte accumulator, threading the escape carry. -/
def unescapeExtend : Bool → List Nat → List Char → List Nat × Bool
  | esc, acc, [] => (acc, esc)
  | esc, acc, c :: cs =>
    if esc || c ≠ '\\' then
      if esc && c = 's' then unescapeExtend false (acc ++ [32]) cs
      else unescapeExtend false (acc ++ encodeChar c) cs
    else unescapeExtend true acc cs

def Matcher.extend_starts_with (m : Matcher) (t : List Char) : Matcher :=
  let r := unescapeExtend m.escape (m.starts_with.getD []) t
  { m with starts_with := some r.1, escape := r.2 }

def Matcher.extend_ends_with (m : Matcher) (t : List Char) : Matcher :=
  let r := unescapeExtend m.escape (m.ends_with.getD []) t
  { m with ends_with := some r.1, escape := r.2 }

/-- `Matcher::extend_regex`: recompile the last slot's source (or the
pending bad source) with the fragment appended; on failure the slot is
left as it was and the combined source is remembered in `bad_regex`.
The Rust code panics when `patterns` is empty; that unreachable case is
embedded as a no-op. -/
def Matcher.extend_regex (m : Matcher) (p : Bool × List Char) : Matcher :=
  match m.patterns.getLast? with
  | none => m
  | some lre =>
    let last := match m.bad_regex with
      | some s => s
      | none => lre.src
    let m := { m with escape := p.1, bad_regex := none }
    let restr := last ++ p.2
    match makeRegex restr with
    | some regex => { m with patterns := m.patterns.dropLast ++ [regex] }
    | none => { m with bad_regex := some restr }

/-- `Matcher::add_regex`: push a new compiled regex, or the empty regex
plus a `bad_regex` note when compilation fails. -/
def Matcher.add_regex (m : Matcher) (p : Bool × List Char) : Matcher :=
  let m := { m with escape := p.1 }
  match makeRegex p.2 with
  | some regex => { m with patterns := m.patterns ++ [regex] }
  | none => { m with bad_regex := some p.2, patterns := m.patterns ++ [emptyRegex] }

/-- `str::split(' ')`: split at every space, keeping empty pieces; the
empty string yields one empty piece. -/
def splitSpace : List Char → List (List Char)
  | [] => [[]]
  | c :: cs =>
    if c = ' ' then [] :: splitSpace cs
    else
      match splitSpace cs with
      | [] => [[c]]
      | f :: r => (c :: f) :: r

/-- The `if self.bad_regex.is_some()` prelude of each loop iteration
in `Matcher::add`: discard the pending bad regex, popping its slot. -/
def dropBad (m : Matcher) : Matcher :=
  if m.bad_regex.isSome
  then { m with bad_regex := none, patterns := m.patterns.dropLast }
  else m

/-- One iteration of the `for p in iter` loop in `Matcher::add`:
discard a pending bad regex, then start a new term according to the
fragment's leading char. -/
def stepFrag (m : Matcher) (scope : PatternScope) (p : List Char) : Matcher × PatternScope :=
  let m := dropBad m
  match p with
  | [] => ({ m with mode := .new }, scope)
  | c :: b =>
    if c = '<' then ({ m.extend_starts_with b with mode := .startsWith }, scope)
    else if c = '>' then ({ m.extend_ends_with b with mode := .endsWith }, .change)
    else if c = '*' then ({ m.add_regex (regex_build false b) with mode := .regex }, scope)
    else ({ m.add_regex (fuzzy_build false (c :: b)) with mode := .fuzzy }, scope)

def addLoop : Matcher → PatternScope → List (List Char) → Matcher × PatternScope
  | m, scope, [] => (m, scope)
  | m, scope, p :: rest =>
    let r := stepFrag m scope p
    addLoop r.1 r.2 rest

/-- `Matcher::add`: append to `text`, split the new text by spaces, let
the first fragment extend the last term when a term is open, then start
new terms; returns `Change` iff an `EndsWith` term was touched. -/
def Matcher.add (m0 : Matcher) (t : List Char) : Matcher × PatternScope :=
  let m := { m0 with text := m0.text ++ t }
  match m.mode, splitSpace t with
  | _, [] => (m, .narrow)
  | .new, frags => addLoop m .narrow frags
  | .fuzzy, f :: rest =>
    if f = [] then addLoop m .narrow rest
    else addLoop (m.extend_regex (fuzzy_build m.escape f)) .narrow rest
  | .regex, f :: rest =>
    if f = [] then addLoop m .narrow rest
    else addLoop (m.extend_regex (regex_build m.escape f)) .narrow rest
  | .startsWith, f :: rest =>
    if f = [] then addLoop m .narrow rest
    else addLoop (m.extend_starts_with f) .narrow rest
  | .endsWith, f :: rest =>
    if f = [] then addLoop m .narrow rest
    else addLoop (m.extend_ends_with f) .change rest

/-- `Matcher::reset`: note it does not clear `escape`, `bad_regex` or
the skip count. -/
def Matcher.reset (m : Matcher) : Matcher :=
  { m with text := [], patterns := [], starts_with := none, ends_with := none, mode := .new }

/-- `Matcher::rm`: truncate the text by `amount` bytes (clamped), reset
and replay through `add`. -/
def Matcher.rm (m : Matcher) (amount : Nat) : Matcher × PatternScope :=
  let text := m.text
  let m := m.reset
  if amount < text.length then ((m.add (text.take (text.length - amount))).1, .change)
  else (m, .change)

/-- `Matcher::set`. -/
def Matcher.set (m : Matcher) (start : Nat) (t : List Char) : Matcher × PatternScope :=
  let start := min start m.text.length
  if start = m.text.length then m.add t
  else
    let sfx := m.text.drop start
    if sfx.isPrefixOf t then m.add (t.drop sfx.length)
    else ((m.reset.add (m.text.take start ++ t)).1, .change)

/-- The skip-count setter (`skip_prefix` in the source). -/
def Matcher.setSkip (m : Matcher) (n : Nat) : Matcher :=
  { m with skip_pfx := n }

/-- `Matcher::adjust_haystack`: clamp the skip count to the haystack
length, so the slice is always in bounds. -/
def Matcher.adjustHay (m : Matcher) (h : List Nat) : List Nat :=
  if 0 < m.skip_pfx then h.drop (min h.length m.skip_pfx) else h

/-- `<[u8]>::starts_with`. -/
def bytesStarts : List Nat → List Nat → Bool
  | [], _ => true
  | _ :: _, [] => false
  | a :: as_, b :: bs => a == b && bytesStarts as_ bs

/-- `<[u8]>::ends_with`. -/
def bytesEnds (needle h : List Nat) : Bool :=
  bytesStarts needle.reverse h.reverse

def Matcher.swOk (m : Matcher) (h : List Nat) : Bool :=
  match m.starts_with with
  | some needle => bytesStarts needle h
  | none => true

def Matcher.ewOk (m : Matcher) (h : List Nat) : Bool :=
  match m.ends_with with
  | some needle => bytesEnds needle h
  | none => true

/-- The conjunction block inside `Matcher::all_matches`. -/
def Matcher.allCore (m : Matcher) (h : List Nat) : Bool :=
  m.swOk h && m.ewOk h && m.patterns.all fun cr => cr.isMatch h

def Matcher.all_matches (m : Matcher) (h : List Nat) : Bool :=
  m.text.isEmpty || m.allCore (m.adjustHay h)

/-- The disjunction block inside `Matcher::any_matches`. -/
def Matcher.anyCore (m : Matcher) (h : List Nat) : Bool :=
  (match m.starts_with with
   | some needle => bytesStarts needle h
   | none => false) ||
  (match m.ends_with with
   | some needle => bytesEnds needle h
   | none => false) ||
  m.patterns.any fun cr => cr.isMatch h

def Matcher.any_matches (m : Matcher) (h : List Nat) : Bool :=
  !m.text.isEmpty && m.anyCore (m.adjustHay h)

/-- The `Pattern` wrapper from `src/pattern.rs`: a matcher plus the
atomic version counter.  `add`, `rm` and `set` call `inc_version`;
`reset` and the skip setter do not. -/
structure PatternS where
  matcher : Matcher
  version : Nat
deriving DecidableEq, Repr

def PatternS.default : PatternS := { matcher := Matcher.default, version := 0 }

def PatternS.addP (p : PatternS) (t : List Char) : PatternS × PatternScope :=
  let r := p.matcher.add t
  ({ matcher := r.1, version := p.version + 1 }, r.2)

def PatternS.rmP (p : PatternS) (amount : Nat) : PatternS × PatternScope :=
  let r := p.matcher.rm amount
  ({ matcher := r.1, version := p.version + 1 }, r.2)

def PatternS.setP (p : PatternS) (start : Nat) (t : List Char) : PatternS × PatternScope :=
  let r := p.matcher.set start t
  ({ matcher := r.1, version := p.version + 1 }, r.2)

def PatternS.setSkipP (p : PatternS) (n : Nat) : PatternS :=
  { p with matcher := p.matcher.setSkip n }

def PatternS.resetP (p : PatternS) : PatternS :=
  { p with matcher := p.matcher.reset }

/-- Outbound frames (`Msg` in `src/server/walker.rs`). -/
inductive Msg
  | clear
  | walkDone
  | addFile (b : List Nat)
  | rmFile (b : List Nat)
  | walkStarted
  | message (s : List Char)
  | resync
deriving DecidableEq, Repr

/-- Byte-lexicographic strict order, the `Ord` of `Bytes`. -/
def lexLt : List Nat → List Nat → Bool
  | [], [] => false
  | [], _ :: _ => true
  | _ :: _, [] => false
  | a :: as_, b :: bs => Nat.blt a b || (a == b && lexLt as_ bs)

def insertSorted (v : List Nat) : List (List Nat) → List (List Nat)
  | [] => [v]
  | x :: xs => if lexLt v x then v :: x :: xs else x :: insertSorted v xs

/-- `BTreeSet::insert`: returns the new set and whether `v` was new. -/
def insertNew (v : List Nat) (l : List (List Nat)) : List (List Nat) × Bool :=
  if v ∈ l then (l, false) else (insertSorted v l, true)

/-- `Window`'s `Inner` state: the capacity and the content set as its
ascending element list. -/
structure WindowS where
  size : Nat
  content : List (List Nat)
deriving DecidableEq, Repr

/-- The `while value < content.len() { content.pop_last(); }` loop of
`Inner::set_size`: repeatedly drop the largest (last) element. -/
def popLargest (n : Nat) (l : List (List Nat)) : List (List Nat) :=
  if _h : n < l.length then popLargest n l.dropLast else l
termination_by l.length
decreasing_by
  have hl : 0 < l.length := Nat.lt_of_le_of_lt (Nat.zero_le n) _h
  simpa [List.length_dropLast] using Nat.sub_lt hl Nat.one_pos

/-- `Inner::set_size`: store the capacity, silently pop the largest
entries; the returned frame list is what the call emits (nothing). -/
def WindowS.set_size (w : WindowS) (n : Nat) : WindowS × List Msg :=
  ({ size := n, content := popLargest n w.content }, [])

/-- The body of `Inner::add` once `content_add` has granted admission:
skip the re-test when the pattern version still matches, insert, emit
`AddFile` only for a genuinely new entry; the `Bool` is Killed and is
set when the emission's send fails (`sendOk = false`). -/
def WindowS.addAdmitted (w : WindowS) (pat : PatternS) (v : List Nat) (pv : Nat)
    (sendOk : Bool) : WindowS × List Msg × Bool :=
  if pv == pat.version || pat.matcher.all_matches v then
    let r := insertNew v w.content
    if r.2 then ({ w with content := r.1 }, [Msg.addFile v], !sendOk)
    else ({ w with content := r.1 }, [], false)
  else (w, [], false)

/-- `Inner::add` with `content_add`'s admission check: a wrong walker
version returns Killed immediately; a full window would block on the
condition variable, modelled as `none`. -/
def WindowS.add (w : WindowS) (pat : PatternS) (v : List Nat) (pv : Nat)
    (walkerWrong sendOk : Bool) : Option (WindowS × List Msg × Bool) :=
  if walkerWrong then some (w, [], true)
  else if w.content.length < w.size then some (w.addAdmitted pat v pv sendOk)
  else none

/-- Decimal digits to a number; `none` on a non-digit. -/
def digitsToNat (acc : Nat) : List Char → Option Nat
  | [] => some acc
  | c :: cs => if c.isDigit then digitsToNat (acc * 10 + (c.toNat - 48)) cs else none

/-- Model of `str::parse::<usize>`: an optional leading `+` and at
least one decimal digit (overflow is not modelled). -/
def parseUsize (s : String) : Option Nat :=
  match s.toList with
  | [] => none
  | '+' :: ds => if ds = [] then none else digitsToNat 0 ds
  | ds => digitsToNat 0 ds

/-- `chars_split_at_space` from `src/server/mod.rs`. -/
def charsSplitAtSpace (s : String) : String × String :=
  match s.toList.findIdx? (· = ' ') with
  | none => (s, "")
  | some pos => (String.mk (s.toList.take pos), String.mk (s.toList.drop (pos + 1)))

/-- The `Result`-aspect of `Walker::command` (src/server/walker.rs):
which `(ct, arg)` pairs return an error to the server loop.  `walk`
failures are messaged internally and return `Ok`; `match`, `stop`,
`add`, `ignore` and `redraw` never fail. -/
def walkerCommandErr (ct arg : String) : Option SrvError :=
  if ct = "walk" || ct = "match" || ct = "stop" || ct = "add" || ct = "ignore"
     || ct = "redraw" then none
  else if ct = "skip-prefix" || ct = "rm" || ct = "window_size" then
    if (parseUsize arg).isSome then none else some .invalidArgument
  else if ct = "set" then
    if (parseUsize (charsSplitAtSpace arg).1).isSome then none else some .invalidArgument
  else some (.unknownCommand ct)

/-- One item delivered by `CommandReader`: a decoded frame, a frame
whose decoding failed in `get_cmd` (UTF-8 or no frame), or a read-side
error from `read` (I/O failure; an exhausted input is `Eof`). -/
inductive InItem
  | frame (cmd arg : String)
  | badFrame (e : SrvError)
  | readErr (e : SrvError)
deriving DecidableEq, Repr

/-- The server loop of `run` (src/server/mod.rs): returns the frames
dispatched successfully, the decode errors reported as `Message`
frames, and the error that terminated the loop.  `commander.read()?`
propagates read errors; `walker.command(ct, arg)?` propagates command
errors; only `get_cmd` errors are messaged and skipped. -/
def runLoop : List InItem → List (String × String) × List SrvError × SrvError
  | [] => ([], [], .eof)
  | .readErr e :: _ => ([], [], e)
  | .badFrame e :: rest =>
    let r := runLoop rest
    (r.1, e :: r.2.1, r.2.2)
  | .frame c a :: rest =>
    match walkerCommandErr c a with
    | some e => ([], [], e)
    | none =>
      let r := runLoop rest
      ((c, a) :: r.1, r.2.1, r.2.2)

/-! Basic lemmas about the regex engine and byte predicates. -/

theorem search_eps (h : List Nat) : RE.search .eps h = true := by
  cases h <;> simp [RE.search, RE.matchPfx, RE.nullable]

theorem emptyRegex_isMatch (h : List Nat) : emptyRegex.isMatch h = true := by
  simp [CompiledRegex.isMatch, emptyRegex, search_eps]

theorem bytesStarts_append (a d h : List Nat) :
    bytesStarts (a ++ d) h = true → bytesStarts a h = true := by
  induction a generalizing h with
  | nil => simp [bytesStarts]
  | cons x xs ih =>
    cases h with
    | nil => simp [bytesStarts]
    | cons y ys =>
      simp only [List.cons_append, bytesStarts, Bool.and_eq_true]
      exact fun hp => ⟨hp.1, ih ys hp.2⟩

theorem splitSpace_ne_nil (t : List Char) : splitSpace t ≠ [] := by
  cases t with
  | nil => simp [splitSpace]
  | cons c cs =>
    unfold splitSpace
    split
    · simp
    · split <;> simp

theorem unescapeExtend_acc (l : List Char) :
    ∀ (e : Bool) (acc d : List Nat),
      (unescapeExtend e (acc ++ d) l).1 = acc ++ (unescapeExtend e d l).1 := by
  induction l with
  | nil => intro e acc d; simp [unescapeExtend]
  | cons c cs ih =>
    intro e acc d
    unfold unescapeExtend
    split
    · split
      · rw [List.append_assoc, ih, ih]
      · rw [List.append_assoc, ih, ih]
    · exact ih true acc d

/-! Frame lemmas: which fields each mutation step leaves unchanged. -/

theorem extend_starts_with_fields (m : Matcher) (b : List Char) :
    (m.extend_starts_with b).text = m.text ∧
    (m.extend_starts_with b).skip_pfx = m.skip_pfx ∧
    (m.extend_starts_with b).ends_with = m.ends_with ∧
    (m.extend_starts_with b).patterns = m.patterns ∧
    (m.extend_starts_with b).bad_regex = m.bad_regex ∧
    (m.extend_starts_with b).mode = m.mode := by
  simp [Matcher.extend_starts_with]

theorem extend_ends_with_fields (m : Matcher) (b : List Char) :
    (m.extend_ends_with b).text = m.text ∧
    (m.extend_ends_with b).skip_pfx = m.skip_pfx ∧
    (m.extend_ends_with b).starts_with = m.starts_with ∧
    (m.extend_ends_with b).patterns = m.patterns ∧
    (m.extend_ends_with b).bad_regex = m.bad_regex ∧
    (m.extend_ends_with b).mode = m.mode := by
  simp [Matcher.extend_ends_with]

theorem add_regex_fields (m : Matcher) (p : Bool × List Char) :
    (m.add_regex p).text = m.text ∧
    (m.add_regex p).skip_pfx = m.skip_pfx ∧
    (m.add_regex p).starts_with = m.starts_with ∧
    (m.add_regex p).ends_with = m.ends_with ∧
    (m.add_regex p).mode = m.mode := by
  unfold Matcher.add_regex
  cases makeRegex p.2 <;> simp

theorem extend_regex_fields (m : Matcher) (p : Bool × List Char) :
    (m.extend_regex p).text = m.text ∧
    (m.extend_regex p).skip_pfx = m.skip_pfx ∧
    (m.extend_regex p).starts_with = m.starts_with ∧
    (m.extend_regex p).ends_with = m.ends_with ∧
    (m.extend_regex p).mode = m.mode := by
  unfold Matcher.extend_regex
  cases m.patterns.getLast? with
  | none => simp
  | some lre =>
    simp only []
    split <;> simp

theorem dropBad_fields (m : Matcher) :
    (dropBad m).text = m.text ∧
    (dropBad m).skip_pfx = m.skip_pfx ∧
    (dropBad m).starts_with = m.starts_with ∧
    (dropBad m).ends_with = m.ends_with ∧
    (dropBad m).mode = m.mode := by
  unfold dropBad
  split <;> simp

theorem stepFrag_text (m : Matcher) (s : PatternScope) (p : List Char) :
    (stepFrag m s p).1.text = m.text := by
  cases p with
  | nil => simp [stepFrag, (dropBad_fields m).1]
  | cons c b =>
    by_cases h1 : c = '<'
    · simp [stepFrag, h1, (extend_starts_with_fields (dropBad m) b).1, (dropBad_fields m).1]
    by_cases h2 : c = '>'
    · simp [stepFrag, h1, h2, (extend_ends_with_fields (dropBad m) b).1, (dropBad_fields m).1]
    by_cases h3 : c = '*'
    · simp [stepFrag, h1, h2, h3, (add_regex_fields (dropBad m) (regex_build false b)).1,
        (dropBad_fields m).1]
    · simp [stepFrag, h1, h2, h3, (add_regex_fields (dropBad m) (fuzzy_build false (c :: b))).1,
        (dropBad_fields m).1]

theorem stepFrag_skip (m : Matcher) (s : PatternScope) (p : List Char) :
    (stepFrag m s p).1.skip_pfx = m.skip_pfx := by
  cases p with
  | nil => simp [stepFrag, (dropBad_fields m).2.1]
  | cons c b =>
    by_cases h1 : c = '<'
    · simp [stepFrag, h1, (extend_starts_with_fields (dropBad m) b).2.1, (dropBad_fields m).2.1]
    by_cases h2 : c = '>'
    · simp [stepFrag, h1, h2, (extend_ends_with_fields (dropBad m) b).2.1, (dropBad_fields m).2.1]
    by_cases h3 : c = '*'
    · simp [stepFrag, h1, h2, h3, (add_regex_fields (dropBad m) (regex_build false b)).2.1,
        (dropBad_fields m).2.1]
    · simp [stepFrag, h1, h2, h3, (add_regex_fields (dropBad m) (fuzzy_build false (c :: b))).2.1,
        (dropBad_fields m).2.1]

theorem addLoop_text (fs : List (List Char)) :
    ∀ (m : Matcher) (s : PatternScope), (addLoop m s fs).1.text = m.text := by
  induction fs with
  | nil => intro m s; rfl
  | cons p rest ih =>
    intro m s
    show (addLoop (stepFrag m s p).1 (stepFrag m s p).2 rest).1.text = m.text
    rw [ih, stepFrag_text]

theorem addLoop_skip (fs : List (List Char)) :
    ∀ (m : Matcher) (s : PatternScope), (addLoop m s fs).1.skip_pfx = m.skip_pfx := by
  induction fs with
  | nil => intro m s; rfl
  | cons p rest ih =>
    intro m s
    show (addLoop (stepFrag m s p).1 (stepFrag m s p).2 rest).1.skip_pfx = m.skip_pfx
    rw [ih, stepFrag_skip]

theorem add_text (m : Matcher) (t : List Char) : (m.add t).1.text = m.text ++ t := by
  unfold Matcher.add
  rcases hs : splitSpace t with _ | ⟨f, rest⟩
  · exact absurd hs (splitSpace_ne_nil t)
  · cases hm : m.mode <;> simp only [hm]
    · rw [addLoop_text]
    all_goals
      split
      · rw [addLoop_text]
    · rw [addLoop_text, (extend_regex_fields _ _).1]
    · rw [addLoop_text, (extend_regex_fields _ _).1]
    · rw [addLoop_text, (extend_starts_with_fields _ _).1]
    · rw [addLoop_text, (extend_ends_with_fields _ _).1]

theorem add_skip (m : Matcher) (t : List Char) : (m.add t).1.skip_pfx = m.skip_pfx := by
  unfold Matcher.add
  rcases hs : splitSpace t with _ | ⟨f, rest⟩
  · exact absurd hs (splitSpace_ne_nil t)
  · cases hm : m.mode <;> simp only [hm]
    · rw [addLoop_skip]
    all_goals
      split
      · rw [addLoop_skip]
    · rw [addLoop_skip, (extend_regex_fields _ _).2.1]
    · rw [addLoop_skip, (extend_regex_fields _ _).2.1]
    · rw [addLoop_skip, (extend_starts_with_fields _ _).2.1]
    · rw [addLoop_skip, (extend_ends_with_fields _ _).2.1]

/-! Claim C9: empty pattern semantics. -/

/-- Shared helper: an empty canonical text short-circuits both
predicates. -/
theorem text_nil_matches (m : Matcher) (h : List Nat) (he : m.text = []) :
    m.all_matches h = true ∧ m.any_matches h = false := by
  simp [Matcher.all_matches, Matcher.any_matches, he]

/-- C9: when the canonical text is empty, `all_matches` returns `true`
and `any_matches` returns `false` for every haystack. -/
theorem c9_empty_pattern (m : Matcher) (h : List Nat) (he : m.text = []) :
    m.all_matches h = true ∧ m.any_matches h = false :=
  text_nil_matches m h he

/-- C9 witness: the default matcher on a concrete haystack. -/
theorem c9_empty_pattern_witness :
    Matcher.default.all_matches [104, 105] = true ∧
    Matcher.default.any_matches [104, 105] = false :=
  c9_empty_pattern Matcher.default [104, 105] rfl

/-! Claim C10: haystack adjustment is clamped, so matching is total. -/

/-- C10: `adjust_haystack` drops exactly `min |h| skip` leading bytes —
never more than the haystack holds — and when the skip count reaches or
exceeds the haystack length the predicates evaluate the empty haystack;
`all_matches`/`any_matches` test exactly this clamped haystack. -/
theorem c10_adjust_clamped (m : Matcher) (h : List Nat) :
    m.adjustHay h = h.drop (min h.length m.skip_pfx) ∧
    (h.length ≤ m.skip_pfx → m.adjustHay h = []) ∧
    m.all_matches h = (m.text.isEmpty || m.allCore (h.drop (min h.length m.skip_pfx))) ∧
    m.any_matches h = (!m.text.isEmpty && m.anyCore (h.drop (min h.length m.skip_pfx))) := by
  have h1 : m.adjustHay h = h.drop (min h.length m.skip_pfx) := by
    unfold Matcher.adjustHay
    split
    · rfl
    · have hz : m.skip_pfx = 0 := Nat.eq_zero_of_not_pos (by assumption)
      simp [hz]
  refine ⟨h1, ?_, ?_, ?_⟩
  · intro hle
    rw [h1, Nat.min_eq_left hle, List.drop_length]
  · rw [Matcher.all_matches, h1]
  · rw [Matcher.any_matches, h1]

/-- C10 witness: a skip count exceeding the haystack length leaves the
empty haystack. -/
theorem c10_adjust_clamped_witness :
    (Matcher.default.setSkip 5).adjustHay [1, 2] = [] :=
  (c10_adjust_clamped (Matcher.default.setSkip 5) [1, 2]).2.1 (by decide)

/-! Claim C2: which mutations increment the version counter. -/

/-- C2 counterexample: `reset` and the skip setter do not increment the
version, so the version after such a mutation is not strictly greater
than before it. -/
theorem c2_version_cex :
    ¬ PatternS.default.version < PatternS.default.resetP.version ∧
    ¬ PatternS.default.version < (PatternS.default.setSkipP 3).version := by
  decide

/-- C2 amended: `add`, `rm` and `set` increment the version by exactly
one; `reset` and the skip setter leave it unchanged. -/
theorem c2_version_increments (p : PatternS) (t : List Char) (n start : Nat) :
    (p.addP t).1.version = p.version + 1 ∧
    (p.rmP n).1.version = p.version + 1 ∧
    (p.setP start t).1.version = p.version + 1 ∧
    p.resetP.version = p.version ∧
    (p.setSkipP n).version = p.version :=
  ⟨rfl, rfl, rfl, rfl, rfl⟩

/-! Claim C1: error propagation in the server loop. -/

/-- C1 counterexample: an unknown command terminates the loop with its
error — the following frame is never dispatched and no message frame is
emitted — even though the error is neither `Eof` nor an I/O error. -/
theorem c1_unknown_command_cex :
    runLoop [InItem.frame "bogus" "", InItem.frame "redraw" ""] =
      ([], [], SrvError.unknownCommand "bogus") ∧
    SrvError.unknownCommand "bogus" ≠ SrvError.eof ∧
    SrvError.unknownCommand "bogus" ≠ SrvError.ioError := by
  refine ⟨rfl, by decide, by decide⟩

/-- C1 amended: only `get_cmd` decode errors are reported as `Message`
frames with the loop continuing; an error returned by
`Walker::command` (for example an unknown command or a non-numeric
argument) terminates the loop exactly like `Eof` and read-side I/O
errors, without being messaged. -/
theorem c1_run_loop_error_policy (c a : String) (e : SrvError) (rest : List InItem) :
    (walkerCommandErr c a = some e → runLoop (InItem.frame c a :: rest) = ([], [], e)) ∧
    runLoop (InItem.badFrame e :: rest) =
      ((runLoop rest).1, e :: (runLoop rest).2.1, (runLoop rest).2.2) ∧
    runLoop (InItem.readErr e :: rest) = ([], [], e) ∧
    runLoop ([] : List InItem) = ([], [], SrvError.eof) ∧
    (walkerCommandErr c a = none → runLoop (InItem.frame c a :: rest) =
      ((c, a) :: (runLoop rest).1, (runLoop rest).2.1, (runLoop rest).2.2)) := by
  refine ⟨fun he => ?_, rfl, rfl, rfl, fun he => ?_⟩
  · simp [runLoop, he]
  · simp [runLoop, he]

/-- C1 witness: a non-numeric `rm` argument terminates the loop. -/
theorem c1_run_loop_error_policy_witness :
    runLoop [InItem.frame "rm" "x", InItem.frame "redraw" ""] =
      ([], [], SrvError.invalidArgument) :=
  (c1_run_loop_error_policy "rm" "x" SrvError.invalidArgument
    [InItem.frame "redraw" ""]).1 (by decide)

/-! Claim C7: `set` canonicalizes the text. -/

/-- C7: `set(start, s)` always leaves the canonical text equal to
`text_pre[..min(start, |text_pre|)] ++ s` — the fast path that
recognizes `s` beginning with the replaced suffix included — and when
`start ≥ |text_pre|` the call is literally `add(s)`. -/
theorem c7_set_canonical_text (m : Matcher) (start : Nat) (s : List Char) :
    (m.set start s).1.text = m.text.take (min start m.text.length) ++ s ∧
    (m.text.length ≤ start → m.set start s = m.add s) := by
  constructor
  · unfold Matcher.set
    by_cases h1 : min start m.text.length = m.text.length
    · rw [if_pos h1, add_text, h1, List.take_length]
    · rw [if_neg h1]
      by_cases h2 : (m.text.drop (min start m.text.length)).isPrefixOf s
      · rw [if_pos h2, add_text]
        obtain ⟨u, hu⟩ := List.isPrefixOf_iff_prefix.mp h2
        calc m.text ++ s.drop (m.text.drop (min start m.text.length)).length
            = m.text.take (min start m.text.length) ++
                m.text.drop (min start m.text.length) ++
                s.drop (m.text.drop (min start m.text.length)).length := by
              rw [List.take_append_drop]
          _ = m.text.take (min start m.text.length) ++ s := by
              rw [List.append_assoc, ← hu, List.drop_left]
      · rw [if_neg h2, add_text]
        have : m.reset.text = [] := rfl
        rw [this, List.nil_append]
  · intro hle
    unfold Matcher.set
    rw [if_pos (Nat.min_eq_right hle)]

/-- C7 witness: with `start` past the end, `set` is `add`. -/
theorem c7_set_canonical_text_witness :
    ((Matcher.default.add ['a', 'b']).1.set 7 ['c']) =
      (Matcher.default.add ['a', 'b']).1.add ['c'] :=
  (c7_set_canonical_text (Matcher.default.add ['a', 'b']).1 7 ['c']).2 (by decide)

/-! Claim C5: shrinking the window evicts the largest entries silently. -/

theorem popLargest_eq_take :
    ∀ (k : Nat) (l : List (List Nat)) (n : Nat), l.length ≤ k →
      popLargest n l = l.take (min n l.length) := by
  intro k
  induction k with
  | zero =>
    intro l n hl
    have hnil : l = [] := List.eq_nil_of_length_eq_zero (Nat.le_zero.mp hl)
    subst hnil
    unfold popLargest
    simp
  | succ k ih =>
    intro l n hl
    unfold popLargest
    split
    · next hlt =>
      have hdl : l.dropLast.length ≤ k := by
        simp only [List.length_dropLast]
        omega
      rw [ih l.dropLast n hdl, List.dropLast_eq_take, List.take_take]
      congr 1
      simp only [List.length_take]
      omega
    · next hge =>
      rw [Nat.min_eq_right (Nat.le_of_not_lt hge), List.take_length]

/-- C5: when `|content| > n`, `set_size n` keeps exactly the `n`
byte-lex smallest entries, evicting the `|content| - n` largest, and
emits no frame at all (in particular no `RmFile`). -/
theorem c5_set_size_evicts (w : WindowS) (n : Nat)
    (hs : w.content.Pairwise fun a b => lexLt a b = true)
    (hn : n < w.content.length) :
    (w.set_size n).1.content = w.content.take n ∧
    (w.set_size n).2 = [] ∧
    ∀ x ∈ w.content.take n, ∀ y ∈ w.content.drop n, lexLt x y = true := by
  refine ⟨?_, rfl, ?_⟩
  · show popLargest n w.content = w.content.take n
    rw [popLargest_eq_take w.content.length w.content n (Nat.le_refl _),
      Nat.min_eq_left (Nat.le_of_lt hn)]
  · have hsp : (w.content.take n ++ w.content.drop n).Pairwise
        fun a b => lexLt a b = true := by
      rw [List.take_append_drop]; exact hs
    exact (List.pairwise_append.mp hsp).2.2

/-- C5 witness: shrinking a three-entry window to capacity one. -/
theorem c5_set_size_evicts_witness :
    (WindowS.set_size { size := 3, content := [[1], [2], [3]] } 1).1.content = [[1]] ∧
    (WindowS.set_size { size := 3, content := [[1], [2], [3]] } 1).2 = [] :=
  ⟨(c5_set_size_evicts { size := 3, content := [[1], [2], [3]] } 1
      (by decide) (by decide)).1,
   (c5_set_size_evicts { size := 3, content := [[1], [2], [3]] } 1
      (by decide) (by decide)).2.1⟩

/-! Claim C4: window admission and stale-version re-test. -/

/-- C4: once admission passes (walker version right, window not full)
`Window::add` runs the re-test body: with an unchanged pattern version
the entry is inserted without re-testing; with a changed version it is
inserted iff it still matches the current pattern; `AddFile` is
emitted exactly for a genuinely new entry, and a failed emission — and
nothing else — yields Killed. -/
theorem c4_window_add (w : WindowS) (pat : PatternS) (v : List Nat) (pv : Nat)
    (ww sendOk : Bool) (hww : ww = false) (hfull : w.content.length < w.size) :
    WindowS.add w pat v pv ww sendOk = some (WindowS.addAdmitted w pat v pv sendOk) ∧
    (pv = pat.version →
      (WindowS.addAdmitted w pat v pv sendOk).1.content = (insertNew v w.content).1) ∧
    (pv ≠ pat.version →
      (WindowS.addAdmitted w pat v pv sendOk).1.content =
        if pat.matcher.all_matches v = true then (insertNew v w.content).1
        else w.content) ∧
    ((WindowS.addAdmitted w pat v pv sendOk).2.1 = [Msg.addFile v] ↔
      ((pv = pat.version ∨ pat.matcher.all_matches v = true) ∧ v ∉ w.content)) ∧
    ((WindowS.addAdmitted w pat v pv sendOk).2.2 = true ↔
      ((pv = pat.version ∨ pat.matcher.all_matches v = true) ∧ v ∉ w.content ∧
        sendOk = false)) := by
  subst hww
  refine ⟨by simp [WindowS.add, hfull], ?_, ?_, ?_, ?_⟩
  · intro hv
    simp [WindowS.addAdmitted, hv, insertNew]
    split <;> simp
  · intro hv
    by_cases hm : pat.matcher.all_matches v = true
    · simp [WindowS.addAdmitted, hm, insertNew]
      split <;> simp
    · have hb : (pv == pat.version || pat.matcher.all_matches v) = false := by
        simp [hv, hm]
      simp [WindowS.addAdmitted, hb, hm, hv]
  · by_cases hc : (pv = pat.version ∨ pat.matcher.all_matches v = true)
    · have hb : (pv == pat.version || pat.matcher.all_matches v) = true := by
        rcases hc with hc | hc <;> simp [hc]
      by_cases hmem : v ∈ w.content
      · simp [WindowS.addAdmitted, hb, insertNew, hmem, hc]
      · simp [WindowS.addAdmitted, hb, insertNew, hmem, hc]
    · have hb : (pv == pat.version || pat.matcher.all_matches v) = false := by
        push_neg at hc
        simp [hc.1, hc.2]
      simp [WindowS.addAdmitted, hb, hc]
  · by_cases hc : (pv = pat.version ∨ pat.matcher.all_matches v = true)
    · have hb : (pv == pat.version || pat.matcher.all_matches v) = true := by
        rcases hc with hc | hc <;> simp [hc]
      by_cases hmem : v ∈ w.content
      · simp [WindowS.addAdmitted, hb, insertNew, hmem, hc]
      · cases sendOk <;> simp [WindowS.addAdmitted, hb, insertNew, hmem, hc]
    · have hb : (pv == pat.version || pat.matcher.all_matches v) = false := by
        push_neg at hc
        simp [hc.1, hc.2]
      simp [WindowS.addAdmitted, hb, hc]

/-- C4 witness: a fresh entry under an unchanged pattern version in a
non-full window is inserted and emitted. -/
theorem c4_window_add_witness :
    WindowS.add { size := 2, content := [] } PatternS.default [7] 0 false true =
      some ({ size := 2, content := [[7]] }, [Msg.addFile [7]], false) := by
  have h := (c4_window_add { size := 2, content := [] } PatternS.default [7] 0
    false true rfl (by decide)).1
  rw [h]
  decide

/-! Claims C3, C6, C8: counterexamples. -/

/-- C3 counterexample: the add of `|x` extends the pending regex term
`ab`, returns `Narrow`, yet turns `all_matches` on the haystack `x`
from `false` to `true` — the match set widened. -/
theorem c3_narrow_widens_cex :
    ((Matcher.default.add ['*', 'a', 'b']).1.add ['|', 'x']).2 = PatternScope.narrow ∧
    (Matcher.default.add ['*', 'a', 'b']).1.all_matches [120] = false ∧
    ((Matcher.default.add ['*', 'a', 'b']).1.add ['|', 'x']).1.all_matches [120] = true := by
  decide

/-- C6 counterexample: for `t = "<s\"` and `k = 1`, after
`reset(); add(t); rm(1)` the text is `"<s"` as claimed, but the replay
runs with the carried escape flag that `reset` does not clear, so the
decoded anchor is a space and the haystack `s` no longer matches,
while `reset(); add("<s")` accepts it. -/
theorem c6_rm_round_trip_cex :
    (((Matcher.default.reset.add ['<', 's', '\\']).1.rm 1).1).text = ['<', 's'] ∧
    (((Matcher.default.reset.add ['<', 's', '\\']).1.rm 1).1).all_matches [115] = false ∧
    ((Matcher.default.reset.add ['<', 's']).1).all_matches [115] = true := by
  decide

/-- C8 counterexample: after `add "*ab"` then `add "("`, extending the
compiled regex term fails, `bad_regex` holds the raw source `ab(`, but
the term's slot still holds the previously compiled regex `ab` — not
the empty regex. -/
theorem c8_bad_regex_slot_cex :
    (((Matcher.default.add ['*', 'a', 'b']).1.add ['(']).1).bad_regex =
      some ['a', 'b', '('] ∧
    (((Matcher.default.add ['*', 'a', 'b']).1.add ['(']).1).patterns.map
      (fun cr => cr.src) = [['a', 'b']] ∧
    (((Matcher.default.add ['*', 'a', 'b']).1.add ['(']).1).patterns ≠ [emptyRegex] := by
  decide

/-! Claim C8 (amended): the bad-regex bookkeeping invariant. -/

/-- Every stored slot has a source that compiles, and a pending
`bad_regex` source does not compile. -/
def WfRegex (m : Matcher) : Prop :=
  (∀ cr ∈ m.patterns, (makeRegex cr.src).isSome = true) ∧
  (∀ s, m.bad_regex = some s → makeRegex s = none)

theorem makeRegex_src {s : List Char} {cr : CompiledRegex}
    (h : makeRegex s = some cr) : cr.src = s := by
  unfold makeRegex at h
  cases hp : parseRegex s with
  | none => rw [hp] at h; simp at h
  | some r => rw [hp] at h; simp at h; rw [← h]

theorem wf_emptyRegex : (makeRegex emptyRegex.src).isSome = true := by decide

theorem wf_congr {m m' : Matcher} (hp : m'.patterns = m.patterns)
    (hb : m'.bad_regex = m.bad_regex) (h : WfRegex m) : WfRegex m' := by
  refine ⟨?_, ?_⟩
  · rw [hp]; exact h.1
  · rw [hb]; exact h.2

theorem wf_dropBad {m : Matcher} (h : WfRegex m) : WfRegex (dropBad m) := by
  unfold dropBad
  split
  · refine ⟨?_, ?_⟩
    · intro cr hcr
      exact h.1 cr (List.dropLast_subset _ hcr)
    · intro s hs
      simp at hs
  · exact h

theorem wf_add_regex {m : Matcher} (p : Bool × List Char) (h : WfRegex m) :
    WfRegex (m.add_regex p) := by
  unfold Matcher.add_regex
  cases hmk : makeRegex p.2 with
  | some r =>
    refine ⟨?_, ?_⟩
    · intro cr hcr
      rcases List.mem_append.mp hcr with hc | hc
      · exact h.1 cr hc
      · have : cr = r := by simpa using hc
        subst this
        rw [makeRegex_src hmk, hmk]
        rfl
    · exact h.2
  | none =>
    refine ⟨?_, ?_⟩
    · intro cr hcr
      rcases List.mem_append.mp hcr with hc | hc
      · exact h.1 cr hc
      · have : cr = emptyRegex := by simpa using hc
        subst this
        exact wf_emptyRegex
    · intro s hs
      simp at hs
      rw [← hs]
      exact hmk

theorem wf_extend_regex {m : Matcher} (p : Bool × List Char) (h : WfRegex m) :
    WfRegex (m.extend_regex p) := by
  unfold Matcher.extend_regex
  cases m.patterns.getLast? with
  | none => exact h
  | some lre =>
    simp only []
    cases hmk : makeRegex
        ((match m.bad_regex with | some s => s | none => lre.src) ++ p.2) with
    | some r =>
      refine ⟨?_, ?_⟩
      · intro cr hcr
        rcases List.mem_append.mp hcr with hc | hc
        · exact h.1 cr (List.dropLast_subset _ hc)
        · have : cr = r := by simpa using hc
          subst this
          rw [makeRegex_src hmk, hmk]
          rfl
      · intro s hs
        simp at hs
    | none =>
      refine ⟨h.1, ?_⟩
      · intro s hs
        simp at hs
        rw [← hs]
        exact hmk

theorem wf_stepFrag {m : Matcher} (s : PatternScope) (p : List Char) (h : WfRegex m) :
    WfRegex (stepFrag m s p).1 := by
  have hd := wf_dropBad h
  cases p with
  | nil => exact wf_congr (by simp [stepFrag]) (by simp [stepFrag]) hd
  | cons c b =>
    by_cases h1 : c = '<'
    · refine wf_congr (m := (dropBad m).extend_starts_with b) ?_ ?_
        (wf_congr (extend_starts_with_fields _ _).2.2.2.1
          (extend_starts_with_fields _ _).2.2.2.2.1 hd)
      · simp [stepFrag, h1]
      · simp [stepFrag, h1]
    by_cases h2 : c = '>'
    · refine wf_congr (m := (dropBad m).extend_ends_with b) ?_ ?_
        (wf_congr (extend_ends_with_fields _ _).2.2.2.1
          (extend_ends_with_fields _ _).2.2.2.2.1 hd)
      · simp [stepFrag, h1, h2]
      · simp [stepFrag, h1, h2]
    by_cases h3 : c = '*'
    · refine wf_congr (m := (dropBad m).add_regex (regex_build false b)) ?_ ?_
        (wf_add_regex _ hd)
      · simp [stepFrag, h1, h2, h3]
      · simp [stepFrag, h1, h2, h3]
    · refine wf_congr (m := (dropBad m).add_regex (fuzzy_build false (c :: b))) ?_ ?_
        (wf_add_regex _ hd)
      · simp [stepFrag, h1, h2, h3]
      · simp [stepFrag, h1, h2, h3]

theorem wf_addLoop (fs : List (List Char)) :
    ∀ (m : Matcher) (s : PatternScope), WfRegex m → WfRegex (addLoop m s fs).1 := by
  induction fs with
  | nil => intro m s h; exact h
  | cons p rest ih =>
    intro m s h
    exact ih (stepFrag m s p).1 (stepFrag m s p).2 (wf_stepFrag s p h)

theorem wf_add {m : Matcher} (t : List Char) (h : WfRegex m) : WfRegex (m.add t).1 := by
  have htext : WfRegex { m with text := m.text ++ t } := wf_congr rfl rfl h
  unfold Matcher.add
  rcases hs : splitSpace t with _ | ⟨f, rest⟩
  · exact absurd hs (splitSpace_ne_nil t)
  · cases hm : m.mode <;> simp only [hm]
    · exact wf_addLoop _ _ _ htext
    all_goals split
    · exact wf_addLoop _ _ _ htext
    · exact wf_addLoop _ _ _ (wf_extend_regex _ htext)
    · exact wf_addLoop _ _ _ htext
    · exact wf_addLoop _ _ _ (wf_extend_regex _ htext)
    · exact wf_addLoop _ _ _ htext
    · exact wf_addLoop _ _ _
        (wf_congr (extend_starts_with_fields _ _).2.2.2.1
          (extend_starts_with_fields _ _).2.2.2.2.1 htext)
    · exact wf_addLoop _ _ _ htext
    · exact wf_addLoop _ _ _
        (wf_congr (extend_ends_with_fields _ _).2.2.2.1
          (extend_ends_with_fields _ _).2.2.2.2.1 htext)

theorem wf_reset {m : Matcher} (h : WfRegex m) : WfRegex m.reset :=
  ⟨by intro cr hcr; simp [Matcher.reset] at hcr, h.2⟩

theorem wf_default : WfRegex Matcher.default :=
  ⟨by intro cr hcr; simp [Matcher.default] at hcr,
   by intro s hs; simp [Matcher.default] at hs⟩

/-- C8 amended: initially and after every mutation, every slot of
`patterns` holds a regex whose recorded source compiles — the failed
term's slot is the empty regex when the term failed at creation, but
retains the previously compiled regex when an extension failed — and
whenever `bad_regex = some s`, the raw source `s` fails to compile.
After `reset` a pending `bad_regex` may survive with no matching slot. -/
theorem c8_bad_regex_invariant (m : Matcher) (t : List Char) (n start k : Nat) :
    WfRegex Matcher.default ∧
    (WfRegex m → WfRegex (m.add t).1 ∧ WfRegex (m.rm n).1 ∧
      WfRegex (m.set start t).1 ∧ WfRegex m.reset ∧ WfRegex (m.setSkip k)) := by
  refine ⟨wf_default, fun h => ⟨wf_add t h, ?_, ?_, wf_reset h, wf_congr rfl rfl h⟩⟩
  · unfold Matcher.rm
    dsimp only
    split
    · exact wf_add _ (wf_reset h)
    · exact wf_reset h
  · unfold Matcher.set
    dsimp only
    split
    · exact wf_add t h
    · split
      · exact wf_add _ h
      · exact wf_add _ (wf_reset h)

/-- C8 witness: the invariant carried through a concrete mutation. -/
theorem c8_bad_regex_invariant_witness :
    WfRegex (Matcher.default.add ['*', 'a', 'b']).1 :=
  ((c8_bad_regex_invariant Matcher.default ['*', 'a', 'b'] 0 0 0).2 wf_default).1

/-! Claim C6 (amended): the `rm` round trip. -/

theorem dropBad_bad_irrel (m : Matcher) (hp : m.patterns = [])
    (b : Option (List Char)) :
    dropBad { m with bad_regex := b } = { m with bad_regex := none } := by
  cases m
  simp only [] at hp
  subst hp
  cases b <;> simp [dropBad]

theorem stepFrag_bad_irrel (m : Matcher) (hp : m.patterns = [])
    (b : Option (List Char)) (s : PatternScope) (f : List Char) :
    stepFrag { m with bad_regex := b } s f = stepFrag { m with bad_regex := none } s f := by
  unfold stepFrag
  dsimp only
  rw [dropBad_bad_irrel m hp b, dropBad_bad_irrel m hp none]

theorem addLoop_bad_irrel (m : Matcher) (hp : m.patterns = [])
    (b : Option (List Char)) (s : PatternScope) (f : List Char) (fs : List (List Char)) :
    addLoop { m with bad_regex := b } s (f :: fs) =
      addLoop { m with bad_regex := none } s (f :: fs) := by
  show addLoop (stepFrag { m with bad_regex := b } s f).1
      (stepFrag { m with bad_regex := b } s f).2 fs =
    addLoop (stepFrag { m with bad_regex := none } s f).1
      (stepFrag { m with bad_regex := none } s f).2 fs
  rw [stepFrag_bad_irrel m hp b s f]

/-- On a freshly reset state (empty text and patterns, mode `New`) the
carried `bad_regex` value cannot influence `add`: the first loop
iteration discards it and pops nothing. -/
theorem add_clean_state (e : Bool) (bA bB : Option (List Char)) (sk : Nat)
    (t : List Char) :
    ((⟨[], none, none, .new, e, [], bA, sk⟩ : Matcher).add t).1 =
      ((⟨[], none, none, .new, e, [], bB, sk⟩ : Matcher).add t).1 := by
  unfold Matcher.add
  dsimp only
  rcases hs : splitSpace t with _ | ⟨f, rest⟩
  · exact absurd hs (splitSpace_ne_nil t)
  · have h1 := addLoop_bad_irrel (⟨[], none, none, .new, e, [] ++ t, none, sk⟩ : Matcher)
      rfl bA .narrow f rest
    have h2 := addLoop_bad_irrel (⟨[], none, none, .new, e, [] ++ t, none, sk⟩ : Matcher)
      rfl bB .narrow f rest
    exact congrArg Prod.fst (h1.trans h2.symm)

/-- C6 amended: after `reset(); add(t); rm(k)` the canonical text
unconditionally equals `t` truncated by its last `k` units (clamped to
empty) — dangling-backslash inputs included — and the matching
semantics coincide with `reset(); add(t[..|t|-k])` provided `add(t)`
leaves the escape carry-over flag as it found it, i.e. `t` has no
dangling backslash: `reset` does not clear that flag, so a carried
escape decodes the replay differently. -/
theorem c6_rm_round_trip (m : Matcher) (t : List Char) (k : Nat) :
    ((((m.reset.add t).1).rm k).1).text = t.take (t.length - k) ∧
    (((m.reset.add t).1).escape = m.escape →
      ∀ h, ((((m.reset.add t).1).rm k).1).all_matches h =
          ((m.reset.add (t.take (t.length - k))).1).all_matches h ∧
        ((((m.reset.add t).1).rm k).1).any_matches h =
          ((m.reset.add (t.take (t.length - k))).1).any_matches h) := by
  have hA2text : ((m.reset.add t).1).text = t := by
    rw [add_text]
    show (m.reset.text : List Char) ++ t = t
    simp [Matcher.reset]
  have hA2skip : ((m.reset.add t).1).skip_pfx = m.skip_pfx := by
    rw [add_skip]
    rfl
  by_cases hk : k < t.length
  · have hrm : (((m.reset.add t).1).rm k).1 =
        ((((m.reset.add t).1).reset).add (t.take (t.length - k))).1 := by
      unfold Matcher.rm
      dsimp only
      rw [hA2text, if_pos hk]
    constructor
    · rw [hrm, add_text]
      show ((((m.reset.add t).1).reset).text : List Char) ++ _ = _
      simp [Matcher.reset]
    · intro hesc
      have hX : ((m.reset.add t).1).reset =
          (⟨[], none, none, .new, m.escape, [], ((m.reset.add t).1).bad_regex,
            m.skip_pfx⟩ : Matcher) := by
        show (⟨[], none, none, .new, ((m.reset.add t).1).escape, [],
            ((m.reset.add t).1).bad_regex, ((m.reset.add t).1).skip_pfx⟩ : Matcher) = _
        rw [hesc, hA2skip]
      have hR : m.reset =
          (⟨[], none, none, .new, m.escape, [], m.bad_regex, m.skip_pfx⟩ : Matcher) := rfl
      have heq : (((m.reset.add t).1).rm k).1 =
          ((m.reset.add (t.take (t.length - k))).1) := by
        rw [hrm, hX, hR]
        exact congrArg Prod.fst (congrArg (fun x => Matcher.add x (t.take (t.length - k)))
          rfl) ▸ add_clean_state m.escape ((m.reset.add t).1).bad_regex m.bad_regex
            m.skip_pfx (t.take (t.length - k))
      intro h
      rw [heq]
      exact ⟨rfl, rfl⟩
  · have htk : t.length - k = 0 := Nat.sub_eq_zero_of_le (Nat.le_of_not_lt hk)
    have hrm : (((m.reset.add t).1).rm k).1 = ((m.reset.add t).1).reset := by
      unfold Matcher.rm
      dsimp only
      rw [hA2text, if_neg hk]
    have hBtext : ((m.reset.add (t.take (t.length - k))).1).text = [] := by
      rw [htk, add_text]
      show (m.reset.text : List Char) ++ [] = []
      simp [Matcher.reset]
    refine ⟨by rw [hrm, htk]; rfl, fun _ h => ?_⟩
    constructor
    · rw [(text_nil_matches _ h (by rw [hrm]; rfl)).1,
        (text_nil_matches _ h hBtext).1]
    · rw [(text_nil_matches _ h (by rw [hrm]; rfl)).2,
        (text_nil_matches _ h hBtext).2]

/-- C6 witness: the unconditional text clause on a dangling-backslash
input, and the matching-semantics clause on an escape-free one. -/
theorem c6_rm_round_trip_witness :
    ((((Matcher.default.reset.add ['<', 's', '\\']).1).rm 1).1).text = ['<', 's'] ∧
    ((((Matcher.default.reset.add ['a', 'b', 'c']).1).rm 1).1).all_matches [97, 98] =
      ((Matcher.default.reset.add ['a', 'b']).1).all_matches [97, 98] :=
  ⟨(c6_rm_round_trip Matcher.default ['<', 's', '\\'] 1).1,
   ((c6_rm_round_trip Matcher.default ['a', 'b', 'c'] 1).2 (by decide) [97, 98]).1⟩

/-! Relational semantics for the regex AST, used to reason about the
fuzzy-term extension in claim C3. -/

/-- `RMatch r v`: the byte list `v` is in the language of `r`. -/
inductive RMatch : RE → List Nat → Prop
  | eps : RMatch .eps []
  | chr (b : Nat) : RMatch (.chr b) [b]
  | cls (neg : Bool) (rs : List (Nat × Nat)) (b : Nat) :
      (clsMem b rs != neg) = true → RMatch (.cls neg rs) [b]
  | altl (a c : RE) (v : List Nat) : RMatch a v → RMatch (.alt a c) v
  | altr (a c : RE) (v : List Nat) : RMatch c v → RMatch (.alt a c) v
  | seqm (a c : RE) (v w : List Nat) : RMatch a v → RMatch c w →
      RMatch (.seq a c) (v ++ w)
  | star0 (a : RE) : RMatch (.star a) []
  | stars (a : RE) (v w : List Nat) : RMatch a v → RMatch (.star a) w →
      RMatch (.star a) (v ++ w)

theorem rmatch_nil_nullable {r : RE} {v : List Nat} (h : RMatch r v) (hv : v = []) :
    r.nullable = true := by
  induction h with
  | eps => rfl
  | chr b => simp at hv
  | cls neg rs b _ => simp at hv
  | altl a c v _ ih => simp [RE.nullable, ih hv]
  | altr a c v _ ih => simp [RE.nullable, ih hv]
  | seqm a c v w _ _ ih1 ih2 =>
    rcases List.append_eq_nil.mp hv with ⟨h1, h2⟩
    simp [RE.nullable, ih1 h1, ih2 h2]
  | star0 a => rfl
  | stars a v w _ _ _ _ => rfl

theorem nullable_rmatch_nil : ∀ (r : RE), r.nullable = true → RMatch r [] := by
  intro r
  induction r with
  | void => intro h; simp [RE.nullable] at h
  | eps => intro _; exact RMatch.eps
  | chr b => intro h; simp [RE.nullable] at h
  | cls neg rs => intro h; simp [RE.nullable] at h
  | alt a c iha ihc =>
    intro h
    rcases Bool.or_eq_true_iff.mp h with h | h
    · exact RMatch.altl a c [] (iha h)
    · exact RMatch.altr a c [] (ihc h)
  | seq a c iha ihc =>
    intro h
    simp only [RE.nullable, Bool.and_eq_true] at h
    exact RMatch.seqm a c [] [] (iha h.1) (ihc h.2)
  | star a _ => intro _; exact RMatch.star0 a

theorem deriv_sound : ∀ (r : RE) (b : Nat) (v : List Nat),
    RMatch (r.deriv b) v → RMatch r (b :: v) := by
  intro r
  induction r with
  | void => intro b v h; rw [RE.deriv] at h; cases h
  | eps => intro b v h; rw [RE.deriv] at h; cases h
  | chr c =>
    intro b v h
    rw [RE.deriv] at h
    by_cases hc : c = b
    · rw [if_pos hc] at h
      cases h
      rw [hc]
      exact RMatch.chr b
    · rw [if_neg hc] at h
      cases h
  | cls neg rs =>
    intro b v h
    rw [RE.deriv] at h
    by_cases hc : (clsMem b rs != neg) = true
    · rw [if_pos hc] at h
      cases h
      exact RMatch.cls neg rs b hc
    · rw [if_neg hc] at h
      cases h
  | alt a c iha ihc =>
    intro b v h
    rw [RE.deriv] at h
    cases h with
    | altl _ _ _ h1 => exact RMatch.altl a c _ (iha b v h1)
    | altr _ _ _ h1 => exact RMatch.altr a c _ (ihc b v h1)
  | seq a c iha ihc =>
    intro b v h
    rw [RE.deriv] at h
    by_cases hn : a.nullable = true
    · rw [if_pos hn] at h
      cases h with
      | altl _ _ _ h1 =>
        cases h1 with
        | seqm _ _ v1 v2 ha hc2 =>
          have := RMatch.seqm a c (b :: v1) v2 (iha b v1 ha) hc2
          simpa using this
      | altr _ _ _ h1 =>
        have := RMatch.seqm a c [] (b :: v) (nullable_rmatch_nil a hn) (ihc b v h1)
        simpa using this
    · rw [if_neg hn] at h
      cases h with
      | seqm _ _ v1 v2 ha hc2 =>
        have := RMatch.seqm a c (b :: v1) v2 (iha b v1 ha) hc2
        simpa using this
  | star a iha =>
    intro b v h
    rw [RE.deriv] at h
    cases h with
    | seqm _ _ v1 v2 ha hs =>
      have := RMatch.stars a (b :: v1) v2 (iha b v1 ha) hs
      simpa using this

theorem deriv_complete {r : RE} {w : List Nat} (h : RMatch r w) :
    ∀ b v, w = b :: v → RMatch (r.deriv b) v := by
  induction h with
  | eps => intro b v hw; simp at hw
  | chr c =>
    intro b v hw
    obtain ⟨hb, hv⟩ : c = b ∧ [] = v := by simpa using hw
    rw [RE.deriv, if_pos hb, ← hv]
    exact RMatch.eps
  | cls neg rs c hcond =>
    intro b v hw
    obtain ⟨hb, hv⟩ : c = b ∧ [] = v := by simpa using hw
    rw [RE.deriv, if_pos (hb ▸ hcond), ← hv]
    exact RMatch.eps
  | altl a c v0 _ ih =>
    intro b v hw
    rw [RE.deriv]
    exact RMatch.altl _ _ _ (ih b v hw)
  | altr a c v0 _ ih =>
    intro b v hw
    rw [RE.deriv]
    exact RMatch.altr _ _ _ (ih b v hw)
  | seqm a c v0 w0 ha hc iha ihc =>
    intro b v hw
    cases v0 with
    | nil =>
      have hn := rmatch_nil_nullable ha rfl
      have hw0 : w0 = b :: v := by simpa using hw
      rw [RE.deriv, if_pos hn]
      exact RMatch.altr _ _ _ (ihc b v hw0)
    | cons x xs =>
      obtain ⟨hx, hv⟩ : x = b ∧ xs ++ w0 = v := by simpa using hw
      have hda := iha b xs (by rw [hx])
      rw [RE.deriv]
      by_cases hn : a.nullable = true
      · rw [if_pos hn]
        exact RMatch.altl _ _ _ (hv ▸ RMatch.seqm _ c xs w0 hda hc)
      · rw [if_neg hn]
        exact hv ▸ RMatch.seqm _ c xs w0 hda hc
  | star0 a => intro b v hw; simp at hw
  | stars a v0 w0 ha hs iha ihs =>
    intro b v hw
    cases v0 with
    | nil =>
      exact ihs b v (by simpa using hw)
    | cons x xs =>
      obtain ⟨hx, hv⟩ : x = b ∧ xs ++ w0 = v := by simpa using hw
      have hda := iha b xs (by rw [hx])
      rw [RE.deriv]
      exact hv ▸ RMatch.seqm _ _ xs w0 hda hs

theorem rmatch_matchPfx : ∀ (v : List Nat) (r : RE) (w : List Nat),
    RMatch r v → RE.matchPfx r (v ++ w) = true := by
  intro v
  induction v with
  | nil =>
    intro r w h
    have hn := rmatch_nil_nullable h rfl
    cases w <;> simp [RE.matchPfx, hn]
  | cons b v2 ih =>
    intro r w h
    have hd := deriv_complete h b v2 rfl
    show RE.matchPfx r (b :: (v2 ++ w)) = true
    simp [RE.matchPfx, ih _ w hd]

theorem matchPfx_sound : ∀ (h : List Nat) (r : RE), RE.matchPfx r h = true →
    ∃ v w, h = v ++ w ∧ RMatch r v := by
  intro h
  induction h with
  | nil =>
    intro r hp
    exact ⟨[], [], rfl, nullable_rmatch_nil r (by simpa [RE.matchPfx] using hp)⟩
  | cons b bs ih =>
    intro r hp
    rcases Bool.or_eq_true_iff.mp (by simpa [RE.matchPfx] using hp) with hn | hd
    · exact ⟨[], b :: bs, rfl, nullable_rmatch_nil r hn⟩
    · obtain ⟨v, w, hbs, hm⟩ := ih (r.deriv b) hd
      exact ⟨b :: v, w, by rw [hbs]; rfl, deriv_sound r b v hm⟩

theorem search_sound : ∀ (h : List Nat) (r : RE), RE.search r h = true →
    ∃ u v w, h = u ++ v ++ w ∧ RMatch r v := by
  intro h
  induction h with
  | nil =>
    intro r hs
    exact ⟨[], [], [], rfl, nullable_rmatch_nil r (by simpa [RE.search] using hs)⟩
  | cons b bs ih =>
    intro r hs
    rcases Bool.or_eq_true_iff.mp (by simpa [RE.search] using hs) with hp | hr
    · obtain ⟨v, w, hvw, hm⟩ := matchPfx_sound (b :: bs) r hp
      exact ⟨[], v, w, by simpa using hvw, hm⟩
    · obtain ⟨u, v, w, hvw, hm⟩ := ih r hr
      exact ⟨b :: u, v, w, by rw [hvw]; rfl, hm⟩

theorem search_of_rmatch : ∀ (u : List Nat) (r : RE) (v w h : List Nat),
    h = u ++ v ++ w → RMatch r v → RE.search r h = true := by
  intro u
  induction u with
  | nil =>
    intro r v w h hh hm
    have hp : RE.matchPfx r (v ++ w) = true := rmatch_matchPfx v r w hm
    rw [hh]
    show RE.search r ([] ++ v ++ w) = true
    cases hvw : v ++ w with
    | nil => simpa [RE.search, hvw] using hp
    | cons x xs =>
      show RE.search r (v ++ w) = true
      rw [hvw]
      rw [hvw] at hp
      simp [RE.search, hp]
  | cons x u2 ih =>
    intro r v w h hh hm
    have hi := ih r v w (u2 ++ v ++ w) rfl hm
    rw [hh]
    show RE.search r (x :: (u2 ++ v ++ w)) = true
    have heq : RE.search r (x :: (u2 ++ v ++ w)) =
        (RE.matchPfx r (x :: (u2 ++ v ++ w)) || RE.search r (u2 ++ v ++ w)) := rfl
    rw [heq, hi, Bool.or_true]

/-! The shape of fuzzy-term regex sources: a concatenation of one
atom per pattern char, as `fuzzy_build` constructs them. -/

/-- One fuzzy atom: `/` becomes `/.*`, any other char `c` becomes
`regex_escape(c)[^/]*`. -/
inductive FAtom
  | slash
  | fchr (c : Char)
deriving DecidableEq, Repr

def fatomStr : FAtom → List Char
  | .slash => ['/', '.', '*']
  | .fchr c => regexEscape c ++ ['[', '^', '/', ']', '*']

def fatomsStr : List FAtom → List Char
  | [] => []
  | a :: l => fatomStr a ++ fatomsStr l

/-- The RE a single fuzzy char constraint parses to. -/
def charAtomRE (c : Char) : RE :=
  if c.toNat < 128 then .chr c.toNat else reOfList (encodeChar c)

/-- The RE a whole fuzzy source parses to: per atom the char
constraint followed by a starred negated class. -/
def fatomChain : List FAtom → RE
  | [] => .eps
  | .slash :: l => .seq (.chr 47) (.seq (.star (.cls true [(10, 10)])) (fatomChain l))
  | .fchr c :: l =>
    .seq (charAtomRE c) (.seq (.star (.cls true [(47, 47)])) (fatomChain l))

theorem fatomsStr_append : ∀ (l1 l2 : List FAtom),
    fatomsStr (l1 ++ l2) = fatomsStr l1 ++ fatomsStr l2 := by
  intro l1 l2
  induction l1 with
  | nil => rfl
  | cons a l ih =>
    show fatomStr a ++ fatomsStr (l ++ l2) = fatomStr a ++ fatomsStr l ++ fatomsStr l2
    rw [ih, List.append_assoc]

/-- `fuzzy_build` always emits a fuzzy-atom string. -/
theorem fuzzy_build_fatoms : ∀ (t : List Char) (esc : Bool),
    ∃ l, (fuzzy_build esc t).2 = fatomsStr l := by
  intro t
  induction t with
  | nil => intro esc; exact ⟨[], rfl⟩
  | cons c cs ih =>
    intro esc
    unfold fuzzy_build
    split
    · obtain ⟨l, hl⟩ := ih false
      by_cases h2 : (if esc && c = 's' then ' ' else c) = '/'
      · refine ⟨.slash :: l, ?_⟩
        simp only [h2, if_pos rfl]
        show ['/', '.', '*'] ++ (fuzzy_build false cs).2 = _
        rw [hl]
        rfl
      · refine ⟨.fchr (if esc && c = 's' then ' ' else c) :: l, ?_⟩
        simp only [if_neg h2]
        show regexEscape _ ++ ['[', '^', '/', ']', '*'] ++ (fuzzy_build false cs).2 = _
        rw [hl]
        show _ = fatomStr (.fchr _) ++ fatomsStr l
        rw [fatomStr, List.append_assoc]
    · exact ih true

theorem escByte_meta : ∀ c ∈ metaChars, escByte c = some c.toNat := by decide

theorem badAtom_sub_meta : ∀ c ∈ badAtomChars, c ∈ metaChars := by decide

theorem quant_sub_meta : ∀ c ∈ quantChars, c ∈ metaChars := by decide

theorem brace_mem_meta : Char.ofNat 123 ∈ metaChars := by decide

/-- A tail whose head cannot be mistaken for a quantifier. -/
def safeTail : List Char → Prop
  | [] => True
  | c :: _ => c ∉ quantChars ∧ c ≠ Char.ofNat 123

theorem fatomsStr_safeTail : ∀ (l : List FAtom), safeTail (fatomsStr l) := by
  intro l
  cases l with
  | nil => trivial
  | cons a l2 =>
    cases a with
    | slash => exact ⟨by decide, by decide⟩
    | fchr c =>
      show safeTail (regexEscape c ++ _ ++ _)
      unfold regexEscape
      split
      · exact ⟨by decide, by decide⟩
      · next hnm =>
        refine ⟨fun hq => hnm (quant_sub_meta c hq), fun hb => hnm (hb ▸ brace_mem_meta)⟩

/-! Evaluation of the regex parser on fuzzy-atom sources. -/

theorem finishQuant_safe (a : RE) (r : List Char) (hr : safeTail r) :
    finishQuant a r = some (a, r) := by
  cases r with
  | nil => rfl
  | cons c r2 =>
    obtain ⟨hq, hb⟩ := hr
    have hq1 : ¬ c = '?' := fun h => hq (by rw [h]; decide)
    unfold finishQuant
    split
    · next heq =>
      exact absurd (List.cons.injEq .. ▸ heq).1 hq1
    · next c2 r3 heq =>
      obtain ⟨hc2, _⟩ := List.cons.injEq .. ▸ heq
      rw [if_neg]
      rw [← hc2]
      simp [hq, hb]
    · next heq => simp at heq

theorem parseClass_nonSlash (f : Nat) (rest : List Char) :
    parseClass (f + 2) ('^' :: '/' :: ']' :: rest) = some (.cls true [(47, 47)], rest) := by
  show parseClassBody (f + 2) ('/' :: ']' :: rest) true [] = _
  show parseClassBody (f + 1) (']' :: rest) true [(47, 47)] = _
  rfl

theorem parseAtom_slash (f : Nat) (rest : List Char) :
    parseAtom (f + 1) ('/' :: rest) = some (.chr 47, rest) := by
  rfl

theorem parseAtom_dot (f : Nat) (rest : List Char) :
    parseAtom (f + 1) ('.' :: rest) = some (.cls true [(10, 10)], rest) := by
  rfl

theorem parseAtom_escAtom (f : Nat) (c : Char) (rest : List Char) :
    parseAtom (f + 1) (regexEscape c ++ rest) = some (charAtomRE c, rest) := by
  unfold regexEscape
  split
  · next hm =>
    show parseAtom (f + 1) ('\\' :: c :: rest) = _
    have he := escByte_meta c hm
    have hall : ∀ x ∈ metaChars, x.toNat < 128 := by decide
    have hlt : c.toNat < 128 := hall c hm
    unfold parseAtom
    simp only [he]
    unfold charAtomRE
    rw [if_pos hlt]
  · next hm =>
    show parseAtom (f + 1) (c :: rest) = _
    have h1 : ¬ c = '(' := fun h => hm (by rw [h]; decide)
    have h2 : ¬ c = '[' := fun h => hm (by rw [h]; decide)
    have h3 : ¬ c = '.' := fun h => hm (by rw [h]; decide)
    have h4 : ¬ c = '\\' := fun h => hm (by rw [h]; decide)
    have h5 : c ∉ badAtomChars := fun h => hm (badAtom_sub_meta c h)
    unfold parseAtom
    split
    · next heq => exact absurd (List.cons.injEq .. ▸ heq).1 h1
    · next heq => exact absurd (List.cons.injEq .. ▸ heq).1 h2
    · next heq => exact absurd (List.cons.injEq .. ▸ heq).1 h3
    · next heq => exact absurd (List.cons.injEq .. ▸ heq).1 h4
    · next heq => exact absurd (List.cons.injEq .. ▸ heq).1 h4
    · next c2 r2 heq =>
      obtain ⟨hc2, hr2⟩ := List.cons.injEq .. ▸ heq
      subst hc2
      subst hr2
      rw [if_neg h5]
      unfold charAtomRE
      split <;> rfl
    · next heq => simp at heq

theorem parseRep_slash (f : Nat) (rest : List Char) :
    parseRep (f + 2) ('/' :: '.' :: '*' :: rest) = some (.chr 47, '.' :: '*' :: rest) := by
  rfl

theorem parseRep_dotstar (f : Nat) (rest : List Char) (hs : safeTail rest) :
    parseRep (f + 2) ('.' :: '*' :: rest) = some (.star (.cls true [(10, 10)]), rest) := by
  show finishQuant (.star (.cls true [(10, 10)])) rest = _
  exact finishQuant_safe _ rest hs

theorem parseRep_classStar (f : Nat) (rest : List Char) (hs : safeTail rest) :
    parseRep (f + 4) ('[' :: '^' :: '/' :: ']' :: '*' :: rest) =
      some (.star (.cls true [(47, 47)]), rest) := by
  show finishQuant (.star (.cls true [(47, 47)])) rest = _
  exact finishQuant_safe _ rest hs

theorem parseRep_escAtom (f : Nat) (c : Char) (rest : List Char) :
    parseRep (f + 2) (regexEscape c ++ ('[' :: rest)) = some (charAtomRE c, '[' :: rest) := by
  have h := parseAtom_escAtom f c ('[' :: rest)
  unfold parseRep
  rw [h]
  rfl

theorem parseSeqR_slash_step (f : Nat) (rest : List Char) (hs : safeTail rest) :
    parseSeqR (f + 4) ('/' :: '.' :: '*' :: rest) =
      (match parseSeqR (f + 2) rest with
       | none => none
       | some (b, s2) =>
         some (RE.seq (RE.chr 47) (RE.seq (RE.star (RE.cls true [(10, 10)])) b), s2)) := by
  have h2 : parseSeqR (f + 3) ('.' :: '*' :: rest) =
      (match parseSeqR (f + 2) rest with
       | none => none
       | some (b, s2) => some (RE.seq (RE.star (RE.cls true [(10, 10)])) b, s2)) := by
    show (match parseRep (f + 2) ('.' :: '*' :: rest) with
         | none => none
         | some (a, s1) =>
           match parseSeqR (f + 2) s1 with
           | none => none
           | some (b, s2) => some (RE.seq a b, s2)) = _
    rw [parseRep_dotstar f rest hs]
  show (match parseRep (f + 3) ('/' :: '.' :: '*' :: rest) with
       | none => none
       | some (a, s1) =>
         match parseSeqR (f + 3) s1 with
         | none => none
         | some (b, s2) => some (RE.seq a b, s2)) = _
  rw [parseRep_slash (f + 1) rest]
  show (match parseSeqR (f + 3) ('.' :: '*' :: rest) with
       | none => none
       | some (b, s2) => some (RE.seq (RE.chr 47) b, s2)) = _
  rw [h2]
  cases parseSeqR (f + 2) rest with
  | none => rfl
  | some p => rfl

theorem parseSeqR_cons (f : Nat) (c : Char) (s : List Char)
    (h3 : ¬ c = ')') (h4 : ¬ c = '|') :
    parseSeqR (f + 1) (c :: s) =
      (match parseRep f (c :: s) with
       | none => none
       | some (a, s1) =>
         match parseSeqR f s1 with
         | none => none
         | some (b, s2) => some (RE.seq a b, s2)) := by
  conv_lhs => rw [parseSeqR]
  rw [if_neg (by simp [h3, h4])]

theorem parseSeqR_fchr_step (f : Nat) (c : Char) (rest : List Char) (hs : safeTail rest) :
    parseSeqR (f + 6) (regexEscape c ++ ('[' :: '^' :: '/' :: ']' :: '*' :: rest)) =
      (match parseSeqR (f + 4) rest with
       | none => none
       | some (b, s2) =>
         some (RE.seq (charAtomRE c)
           (RE.seq (RE.star (RE.cls true [(47, 47)])) b), s2)) := by
  have h2 : parseSeqR (f + 5) ('[' :: '^' :: '/' :: ']' :: '*' :: rest) =
      (match parseSeqR (f + 4) rest with
       | none => none
       | some (b, s2) => some (RE.seq (RE.star (RE.cls true [(47, 47)])) b, s2)) := by
    show (match parseRep (f + 4) ('[' :: '^' :: '/' :: ']' :: '*' :: rest) with
         | none => none
         | some (a, s1) =>
           match parseSeqR (f + 4) s1 with
           | none => none
           | some (b, s2) => some (RE.seq a b, s2)) = _
    rw [parseRep_classStar f rest hs]
  have h1 := parseRep_escAtom (f + 3) c ('^' :: '/' :: ']' :: '*' :: rest)
  unfold regexEscape at h1 ⊢
  split
  · next hm =>
    rw [if_pos hm] at h1
    show (match parseRep (f + 5)
        ('\\' :: c :: '[' :: '^' :: '/' :: ']' :: '*' :: rest) with
      | none => none
      | some (a, s1) =>
        match parseSeqR (f + 5) s1 with
        | none => none
        | some (b, s2) => some (RE.seq a b, s2)) = _
    rw [show ('\\' :: c :: '[' :: '^' :: '/' :: ']' :: '*' :: rest) =
        ['\\', c] ++ ('[' :: '^' :: '/' :: ']' :: '*' :: rest) from rfl, h1]
    show (match parseSeqR (f + 5) ('[' :: '^' :: '/' :: ']' :: '*' :: rest) with
         | none => none
         | some (b, s2) => some (RE.seq (charAtomRE c) b, s2)) = _
    rw [h2]
    cases parseSeqR (f + 4) rest with
    | none => rfl
    | some p => rfl
  · next hm =>
    rw [if_neg hm] at h1
    have h3 : ¬ c = ')' := fun h => hm (by rw [h]; decide)
    have h4 : ¬ c = '|' := fun h => hm (by rw [h]; decide)
    show parseSeqR (f + 6) (c :: '[' :: '^' :: '/' :: ']' :: '*' :: rest) = _
    rw [parseSeqR_cons (f + 5) c ('[' :: '^' :: '/' :: ']' :: '*' :: rest) h3 h4]
    rw [show (c :: '[' :: '^' :: '/' :: ']' :: '*' :: rest) =
        [c] ++ ('[' :: '^' :: '/' :: ']' :: '*' :: rest) from rfl, h1]
    show (match parseSeqR (f + 5) ('[' :: '^' :: '/' :: ']' :: '*' :: rest) with
         | none => none
         | some (b, s2) => some (RE.seq (charAtomRE c) b, s2)) = _
    rw [h2]
    cases parseSeqR (f + 4) rest with
    | none => rfl
    | some p => rfl

theorem parseSeqR_fatoms : ∀ (l : List FAtom) (f : Nat),
    parseSeqR (6 * l.length + f + 1) (fatomsStr l) = some (fatomChain l, []) := by
  intro l
  induction l with
  | nil => intro f; rfl
  | cons a l ih =>
    intro f
    cases a with
    | slash =>
      have he : 6 * (FAtom.slash :: l).length + f + 1 = (6 * l.length + f + 3) + 4 := by
        simp [List.length_cons]; ring
      have hfa : fatomsStr (FAtom.slash :: l) = '/' :: '.' :: '*' :: fatomsStr l := rfl
      rw [he, hfa, parseSeqR_slash_step (6 * l.length + f + 3) (fatomsStr l)
        (fatomsStr_safeTail l)]
      have h5 : (6 * l.length + f + 3) + 2 = 6 * l.length + (f + 4) + 1 := by ring
      rw [h5, ih (f + 4)]
      rfl
    | fchr c =>
      have he : 6 * (FAtom.fchr c :: l).length + f + 1 = (6 * l.length + f + 1) + 6 := by
        simp [List.length_cons]; ring
      have hfa : fatomsStr (FAtom.fchr c :: l) =
          regexEscape c ++ ('[' :: '^' :: '/' :: ']' :: '*' :: fatomsStr l) := by
        show (regexEscape c ++ ['[', '^', '/', ']', '*']) ++ fatomsStr l = _
        rw [List.append_assoc]
        rfl
      rw [he, hfa, parseSeqR_fchr_step (6 * l.length + f + 1) c (fatomsStr l)
        (fatomsStr_safeTail l)]
      have h5 : (6 * l.length + f + 1) + 4 = 6 * l.length + (f + 4) + 1 := by ring
      rw [h5, ih (f + 4)]
      rfl

theorem parseAltR_fatoms (l : List FAtom) (f : Nat) :
    parseAltR (6 * l.length + f + 2) (fatomsStr l) = some (fatomChain l, []) := by
  show (match parseSeqR (6 * l.length + f + 1) (fatomsStr l) with
       | none => none
       | some (a, s1) =>
         match s1 with
         | '|' :: s2 =>
           (match parseAltR (6 * l.length + f + 1) s2 with
            | none => none
            | some (b, s3) => some (RE.alt a b, s3))
         | _ => some (a, s1)) = _
  rw [parseSeqR_fatoms l f]

theorem fatomStr_len (a : FAtom) : 3 ≤ (fatomStr a).length := by
  cases a with
  | slash => decide
  | fchr c =>
    show 3 ≤ (regexEscape c ++ ['[', '^', '/', ']', '*']).length
    rw [List.length_append]
    have h5 : (['[', '^', '/', ']', '*'] : List Char).length = 5 := rfl
    omega

theorem fatomsStr_len (l : List FAtom) : 3 * l.length ≤ (fatomsStr l).length := by
  induction l with
  | nil => simp [fatomsStr]
  | cons a l ih =>
    have h := fatomStr_len a
    show 3 * (a :: l).length ≤ (fatomStr a ++ fatomsStr l).length
    rw [List.length_append, List.length_cons]
    omega

theorem parseRegex_fatoms (l : List FAtom) :
    parseRegex (fatomsStr l) = some (fatomChain l) := by
  have hlen := fatomsStr_len l
  have hf : 4 * (fatomsStr l).length + 8 =
      6 * l.length + (4 * (fatomsStr l).length + 6 - 6 * l.length) + 2 := by omega
  unfold parseRegex
  rw [hf, parseAltR_fatoms l (4 * (fatomsStr l).length + 6 - 6 * l.length)]

theorem makeRegex_fatoms (l : List FAtom) :
    makeRegex (fatomsStr l) =
      some { src := fatomsStr l, ci := fatomsStr l == strLower (fatomsStr l),
             re := fatomChain l } := by
  unfold makeRegex
  rw [parseRegex_fatoms l]
  rfl

theorem chain_append_rmatch : ∀ (l1 l2 : List FAtom) (v : List Nat),
    RMatch (fatomChain (l1 ++ l2)) v →
    ∃ v1 v2, v = v1 ++ v2 ∧ RMatch (fatomChain l1) v1 := by
  intro l1
  induction l1 with
  | nil =>
    intro l2 v h
    exact ⟨[], v, rfl, RMatch.eps⟩
  | cons a l1 ih =>
    intro l2 v h
    cases a with
    | slash =>
      have h' : RMatch (RE.seq (RE.chr 47)
          (RE.seq (RE.star (RE.cls true [(10, 10)])) (fatomChain (l1 ++ l2)))) v := h
      cases h' with
      | seqm _ _ u w hu hw =>
        cases hw with
        | seqm _ _ w1 w2 hw1 hw2 =>
          obtain ⟨x1, x2, hx, hm1⟩ := ih l2 w2 hw2
          refine ⟨u ++ (w1 ++ x1), x2, ?_, ?_⟩
          · rw [hx]; simp [List.append_assoc]
          · exact RMatch.seqm _ _ _ _ hu (RMatch.seqm _ _ _ _ hw1 hm1)
    | fchr c =>
      have h' : RMatch (RE.seq (charAtomRE c)
          (RE.seq (RE.star (RE.cls true [(47, 47)])) (fatomChain (l1 ++ l2)))) v := h
      cases h' with
      | seqm _ _ u w hu hw =>
        cases hw with
        | seqm _ _ w1 w2 hw1 hw2 =>
          obtain ⟨x1, x2, hx, hm1⟩ := ih l2 w2 hw2
          refine ⟨u ++ (w1 ++ x1), x2, ?_, ?_⟩
          · rw [hx]; simp [List.append_assoc]
          · exact RMatch.seqm _ _ _ _ hu (RMatch.seqm _ _ _ _ hw1 hm1)

/-- Regexes whose match set is closed under ASCII case folding of the
haystack. -/
def FoldStable : RE → Prop
  | .void => True
  | .eps => True
  | .chr b => foldByte b = b
  | .cls neg rs => ∀ b, (clsMem b rs != neg) = true → (clsMem (foldByte b) rs != neg) = true
  | .alt a b => FoldStable a ∧ FoldStable b
  | .seq a b => FoldStable a ∧ FoldStable b
  | .star a => FoldStable a

theorem rmatch_fold : ∀ (r : RE) (v : List Nat), RMatch r v → FoldStable r →
    RMatch r (v.map foldByte) := by
  intro r v h
  induction h with
  | eps => intro _; exact RMatch.eps
  | chr b =>
    intro hs
    show RMatch (RE.chr b) [foldByte b]
    rw [show foldByte b = b from hs]
    exact RMatch.chr b
  | cls neg rs b hb =>
    intro hs
    exact RMatch.cls neg rs (foldByte b) (hs b hb)
  | altl a c v h ih =>
    intro hs
    have hs' : FoldStable a ∧ FoldStable c := hs
    exact RMatch.altl _ _ _ (ih hs'.1)
  | altr a c v h ih =>
    intro hs
    have hs' : FoldStable a ∧ FoldStable c := hs
    exact RMatch.altr _ _ _ (ih hs'.2)
  | seqm a c v w h1 h2 ih1 ih2 =>
    intro hs
    have hs' : FoldStable a ∧ FoldStable c := hs
    rw [List.map_append]
    exact RMatch.seqm _ _ _ _ (ih1 hs'.1) (ih2 hs'.2)
  | star0 a => intro _; exact RMatch.star0 a
  | stars a v w h1 h2 ih1 ih2 =>
    intro hs
    rw [List.map_append]
    exact RMatch.stars _ _ _ (ih1 hs) (ih2 hs)

theorem charToNat_ofNat (n : Nat) (h : n < 55296) : (Char.ofNat n).toNat = n := by
  unfold Char.ofNat
  rw [dif_pos (Or.inl h)]
  unfold Char.ofNatAux Char.toNat
  exact BitVec.toNat_ofNatLt n _

theorem toLower_fix_foldByte (c : Char) (h : c.toLower = c) :
    foldByte c.toNat = c.toNat := by
  unfold foldByte
  by_cases hin : 65 ≤ c.toNat ∧ c.toNat ≤ 90
  · exfalso
    unfold Char.toLower at h
    rw [if_pos hin] at h
    have ht := congrArg Char.toNat h
    rw [charToNat_ofNat (c.toNat + 32) (by omega)] at ht
    omega
  · rw [if_neg (by simpa [Bool.and_eq_true, decide_eq_true_eq] using hin)]

theorem foldByte_ge128 (b : Nat) (h : 128 ≤ b) : foldByte b = b := by
  unfold foldByte
  rw [if_neg (by simp only [Bool.and_eq_true, decide_eq_true_eq, not_and]; omega)]

theorem encodeChar_ge128 (c : Char) (hge : 128 ≤ c.toNat) :
    ∀ b ∈ encodeChar c, 128 ≤ b := by
  intro b hb
  simp only [encodeChar] at hb
  split_ifs at hb <;>
    simp only [List.mem_cons, List.not_mem_nil, or_false] at hb <;> omega

theorem foldStable_reOfList : ∀ (bs : List Nat), (∀ b ∈ bs, foldByte b = b) →
    FoldStable (reOfList bs) := by
  intro bs
  induction bs with
  | nil => intro _; trivial
  | cons b r ih =>
    intro h
    cases r with
    | nil => exact h b (by simp)
    | cons b2 r2 =>
      exact ⟨h b (by simp), ih (fun x hx => h x (by simp [hx]))⟩

theorem clsStable_single (n : Nat) (hn : n < 97) (b : Nat)
    (hb : (clsMem b [(n, n)] != true) = true) :
    (clsMem (foldByte b) [(n, n)] != true) = true := by
  simp only [clsMem, List.any_cons, List.any_nil, Bool.or_false, bne_iff_ne, ne_eq,
    Bool.and_eq_true, decide_eq_true_eq, not_and] at hb ⊢
  unfold foldByte
  by_cases hr : (65 ≤ b && b ≤ 90) = true
  · rw [if_pos hr]
    simp only [Bool.and_eq_true, decide_eq_true_eq] at hr
    omega
  · rw [if_neg hr]
    exact hb

/-- A fuzzy atom whose source chars survive `to_lowercase` unchanged. -/
def lowerAtom : FAtom → Prop
  | .slash => True
  | .fchr c => c.toLower = c

theorem foldStable_charAtomRE (c : Char) (h : c.toLower = c) :
    FoldStable (charAtomRE c) := by
  unfold charAtomRE
  split
  · next hlt => exact toLower_fix_foldByte c h
  · next hlt =>
    exact foldStable_reOfList _ fun b hb =>
      foldByte_ge128 b (encodeChar_ge128 c (by omega) b hb)

theorem foldStable_chain : ∀ (l : List FAtom), (∀ a ∈ l, lowerAtom a) →
    FoldStable (fatomChain l) := by
  intro l
  induction l with
  | nil => intro _; trivial
  | cons a l ih =>
    intro h
    cases a with
    | slash =>
      exact ⟨rfl, fun b => clsStable_single 10 (by omega) b, ih fun x hx => h x (by simp [hx])⟩
    | fchr c =>
      have hc : lowerAtom (FAtom.fchr c) := h _ (by simp)
      exact ⟨foldStable_charAtomRE c hc,
        fun b => clsStable_single 47 (by omega) b, ih fun x hx => h x (by simp [hx])⟩

theorem strLower_append_left {s1 s2 : List Char}
    (h : strLower (s1 ++ s2) = s1 ++ s2) : strLower s1 = s1 := by
  rw [show strLower (s1 ++ s2) = strLower s1 ++ strLower s2 from List.map_append _ _ _] at h
  exact (List.append_inj h (List.length_map _ _)).1

theorem lower_atoms_of_lower : ∀ (l : List FAtom),
    strLower (fatomsStr l) = fatomsStr l → ∀ a ∈ l, lowerAtom a := by
  intro l
  induction l with
  | nil => intro _ a ha; simp at ha
  | cons a l ih =>
    intro h x hx
    have h' : strLower (fatomStr a) ++ strLower (fatomsStr l) = fatomStr a ++ fatomsStr l := by
      unfold strLower
      rw [← List.map_append]
      exact h
    have hl : (strLower (fatomStr a)).length = (fatomStr a).length := List.length_map _ _
    have hsplit := List.append_inj h' hl
    rcases List.mem_cons.mp hx with rfl | hx2
    · cases x with
      | slash => trivial
      | fchr c =>
        show c.toLower = c
        by_cases hm : c ∈ metaChars
        · exact (show ∀ y ∈ metaChars, y.toLower = y by decide) c hm
        · have h2 : fatomStr (FAtom.fchr c) = c :: ['[', '^', '/', ']', '*'] := by
            show regexEscape c ++ _ = _
            unfold regexEscape
            rw [if_neg hm]
            rfl
          have h1 := hsplit.1
          rw [h2] at h1
          have h3 := congrArg List.head? h1
          simpa [strLower] using h3
    · exact ih hsplit.2 x hx2

theorem search_narrow_append (l1 l2 : List FAtom) (h : List Nat)
    (hs : RE.search (fatomChain (l1 ++ l2)) h = true) :
    RE.search (fatomChain l1) h = true := by
  obtain ⟨u, v, w, hvw, hm⟩ := search_sound h _ hs
  obtain ⟨v1, v2, hv, hm1⟩ := chain_append_rmatch l1 l2 v hm
  exact search_of_rmatch u _ v1 (v2 ++ w) h
    (by rw [hvw, hv]; simp [List.append_assoc]) hm1

theorem search_narrow_append_fold (l1 l2 : List FAtom) (h : List Nat)
    (hlow : strLower (fatomsStr l1) = fatomsStr l1)
    (hs : RE.search (fatomChain (l1 ++ l2)) h = true) :
    RE.search (fatomChain l1) (h.map foldByte) = true := by
  obtain ⟨u, v, w, hvw, hm⟩ := search_sound h _ hs
  obtain ⟨v1, v2, hv, hm1⟩ := chain_append_rmatch l1 l2 v hm
  have hm1f : RMatch (fatomChain l1) (v1.map foldByte) :=
    rmatch_fold _ _ hm1 (foldStable_chain l1 (lower_atoms_of_lower l1 hlow))
  exact search_of_rmatch (u.map foldByte) _ (v1.map foldByte) ((v2 ++ w).map foldByte) _
    (by rw [hvw, hv]; simp [List.map_append, List.append_assoc]) hm1f

/-- The compiled regex `make_regex` produces for a fuzzy source. -/
def fuzzyCR (l : List FAtom) : CompiledRegex :=
  { src := fatomsStr l, ci := fatomsStr l == strLower (fatomsStr l), re := fatomChain l }

theorem makeRegex_fatoms_fuzzyCR (l : List FAtom) :
    makeRegex (fatomsStr l) = some (fuzzyCR l) := makeRegex_fatoms l

theorem fuzzy_isMatch_narrows (l1 l2 : List FAtom) (hay : List Nat)
    (hm : (fuzzyCR (l1 ++ l2)).isMatch hay = true) :
    (fuzzyCR l1).isMatch hay = true := by
  unfold CompiledRegex.isMatch fuzzyCR at hm ⊢
  simp only at hm ⊢
  by_cases h12 : fatomsStr (l1 ++ l2) = strLower (fatomsStr (l1 ++ l2))
  · have hlow12 : strLower (fatomsStr (l1 ++ l2)) = fatomsStr (l1 ++ l2) := h12.symm
    have hlow1 : strLower (fatomsStr l1) = fatomsStr l1 := by
      rw [fatomsStr_append] at hlow12
      exact strLower_append_left hlow12
    rw [if_pos (by simpa [beq_iff_eq] using h12)] at hm
    rw [if_pos (by simpa [beq_iff_eq] using hlow1.symm)]
    exact search_narrow_append l1 l2 _ hm
  · rw [if_neg (by simpa [beq_iff_eq] using h12)] at hm
    by_cases h1 : fatomsStr l1 = strLower (fatomsStr l1)
    · rw [if_pos (by simpa [beq_iff_eq] using h1)]
      exact search_narrow_append_fold l1 l2 _ h1.symm hm
    · rw [if_neg (by simpa [beq_iff_eq] using h1)]
      exact search_narrow_append l1 l2 _ hm

/-! Claim C3 (amended): narrowing adds only shrink the match set. -/

/-- A pending `bad_regex` always sits in a final slot that matches
every haystack (the empty regex pushed when its term failed to start);
this is the state in which discarding the slot cannot widen. -/
def GoodBad (m : Matcher) : Prop :=
  ∀ s, m.bad_regex = some s →
    ∃ cr, m.patterns.getLast? = some cr ∧ ∀ h, cr.isMatch h = true

theorem goodBad_of_bad_none {m : Matcher} (hb : m.bad_regex = none) : GoodBad m := by
  intro s hs
  rw [hb] at hs
  exact absurd hs (by simp)

theorem dropBad_bad (m : Matcher) : (dropBad m).bad_regex = none := by
  unfold dropBad
  split
  · rfl
  · next hb => exact Option.not_isSome_iff_eq_none.mp (by simpa using hb)

theorem allCore_mode (m : Matcher) (md : AddMode) (h : List Nat) :
    Matcher.allCore { m with mode := md } h = m.allCore h := rfl

theorem goodBad_mode (m : Matcher) (md : AddMode) (hg : GoodBad m) :
    GoodBad { m with mode := md } := hg

theorem dropBad_allCore {m : Matcher} (hg : GoodBad m) (h : List Nat) :
    (dropBad m).allCore h = true → m.allCore h = true := by
  by_cases hb : m.bad_regex.isSome
  · obtain ⟨s, hs⟩ := Option.isSome_iff_exists.mp hb
    obtain ⟨cr, hlast, hall⟩ := hg s hs
    have hp : m.patterns.dropLast ++ [cr] = m.patterns :=
      List.dropLast_append_getLast? cr hlast
    intro hc
    have hc' : (m.swOk h && m.ewOk h &&
        m.patterns.dropLast.all fun cr => cr.isMatch h) = true := by
      simpa [dropBad, hb, Matcher.allCore] using hc
    show (m.swOk h && m.ewOk h && m.patterns.all fun cr => cr.isMatch h) = true
    have hall2 : m.patterns.all (fun cr => cr.isMatch h) =
        ((m.patterns.dropLast.all fun cr => cr.isMatch h) &&
          ([cr].all fun cr => cr.isMatch h)) := by
      conv_lhs => rw [← hp]
      rw [List.all_append]
    rw [hall2]
    simp only [Bool.and_eq_true] at hc' ⊢
    exact ⟨hc'.1, hc'.2, by simp [hall h]⟩
  · intro hc
    simpa [dropBad, hb] using hc

theorem goodBad_dropBad (m : Matcher) : GoodBad (dropBad m) :=
  goodBad_of_bad_none (dropBad_bad m)

theorem swOk_extend {m : Matcher} (b : List Char) (h : List Nat) :
    (m.extend_starts_with b).swOk h = true → m.swOk h = true := by
  intro hc
  cases hsw : m.starts_with with
  | none => simp [Matcher.swOk, hsw]
  | some a =>
    have hdec : (unescapeExtend m.escape a b).1 =
        a ++ (unescapeExtend m.escape [] b).1 := by
      have := unescapeExtend_acc b m.escape a []
      simpa using this
    have hc' : bytesStarts ((unescapeExtend m.escape a b).1) h = true := by
      simpa [Matcher.extend_starts_with, Matcher.swOk, hsw] using hc
    rw [hdec] at hc'
    simpa [Matcher.swOk, hsw] using bytesStarts_append a _ h hc'

theorem allCore_extend_sw {m : Matcher} (b : List Char) (h : List Nat) :
    (m.extend_starts_with b).allCore h = true → m.allCore h = true := by
  intro hc
  have h1 : ((m.extend_starts_with b).swOk h &&
      (m.extend_starts_with b).ewOk h &&
      (m.extend_starts_with b).patterns.all fun cr => cr.isMatch h) = true := hc
  have hew : (m.extend_starts_with b).ewOk h = m.ewOk h := by
    unfold Matcher.ewOk
    rw [(extend_starts_with_fields m b).2.2.1]
  have hpat : (m.extend_starts_with b).patterns = m.patterns :=
    (extend_starts_with_fields m b).2.2.2.1
  simp only [Bool.and_eq_true] at h1
  show (m.swOk h && m.ewOk h && m.patterns.all fun cr => cr.isMatch h) = true
  simp only [Bool.and_eq_true]
  refine ⟨⟨swOk_extend b h h1.1.1, ?_⟩, ?_⟩
  · rw [← hew]; exact h1.1.2
  · rw [← hpat]; exact h1.2

theorem allCore_add_regex {m : Matcher} (p : Bool × List Char) (h : List Nat) :
    (m.add_regex p).allCore h = true → m.allCore h = true := by
  intro hc
  unfold Matcher.add_regex at hc
  show (m.swOk h && m.ewOk h && m.patterns.all fun cr => cr.isMatch h) = true
  cases hmk : makeRegex p.2 <;> rw [hmk] at hc <;>
    · have hc' := hc
      simp only [Matcher.allCore, List.all_append, Bool.and_eq_true] at hc'
      simp only [Bool.and_eq_true]
      exact ⟨⟨hc'.1.1, hc'.1.2⟩, hc'.2.1⟩

theorem goodBad_add_regex {m : Matcher} (p : Bool × List Char)
    (hb : m.bad_regex = none) : GoodBad (m.add_regex p) := by
  unfold Matcher.add_regex
  cases hmk : makeRegex p.2 with
  | some r =>
    intro s hs
    simp [hb] at hs
  | none =>
    intro s hs
    exact ⟨emptyRegex, by simp [List.getLast?_concat], emptyRegex_isMatch⟩

theorem goodBad_transfer {m m2 : Matcher} (hp : m2.patterns = m.patterns)
    (hb : m2.bad_regex = m.bad_regex) (hg : GoodBad m) : GoodBad m2 := by
  intro s hs
  rw [hb] at hs
  obtain ⟨cr, h1, h2⟩ := hg s hs
  exact ⟨cr, by rw [hp]; exact h1, h2⟩

theorem all_last_impl (pats : List CompiledRegex) (old nw : CompiledRegex) (h : List Nat)
    (hlast : pats.getLast? = some old)
    (himp : nw.isMatch h = true → old.isMatch h = true)
    (hc : (pats.dropLast ++ [nw]).all (fun cr => cr.isMatch h) = true) :
    pats.all (fun cr => cr.isMatch h) = true := by
  have hp : pats.dropLast ++ [old] = pats := List.dropLast_append_getLast? old hlast
  rw [List.all_append] at hc
  simp only [Bool.and_eq_true] at hc
  rw [← hp, List.all_append]
  simp only [Bool.and_eq_true]
  refine ⟨hc.1, ?_⟩
  have h2 : nw.isMatch h = true := by simpa using hc.2
  simpa using himp h2

theorem extend_regex_none (m : Matcher) (p : Bool × List Char)
    (h : m.patterns.getLast? = none) : m.extend_regex p = m := by
  unfold Matcher.extend_regex
  rw [h]

theorem extend_regex_eq_bad (m : Matcher) (p : Bool × List Char) (lre : CompiledRegex)
    (h : m.patterns.getLast? = some lre) (s : List Char) (hb : m.bad_regex = some s) :
    m.extend_regex p =
      (match makeRegex (s ++ p.2) with
       | some regex =>
         { m with
             escape := p.1, bad_regex := none,
             patterns := m.patterns.dropLast ++ [regex] }
       | none => { m with escape := p.1, bad_regex := some (s ++ p.2) }) := by
  unfold Matcher.extend_regex
  rw [h, hb]

theorem extend_regex_eq_good (m : Matcher) (p : Bool × List Char) (lre : CompiledRegex)
    (h : m.patterns.getLast? = some lre) (hb : m.bad_regex = none) :
    m.extend_regex p =
      (match makeRegex (lre.src ++ p.2) with
       | some regex =>
         { m with
             escape := p.1, bad_regex := none,
             patterns := m.patterns.dropLast ++ [regex] }
       | none => { m with escape := p.1, bad_regex := some (lre.src ++ p.2) }) := by
  unfold Matcher.extend_regex
  rw [h, hb]

theorem goodBad_of_empty_slot {m : Matcher}
    (hb : ∀ s, m.bad_regex = some s → m.patterns.getLast? = some emptyRegex) :
    GoodBad m :=
  fun s hs => ⟨emptyRegex, hb s hs, emptyRegex_isMatch⟩

/-- Extending the open term with a fuzzy-atom fragment, in a state
where a pending bad regex (if any) sits in an empty-regex slot and a
good last slot is the compiled fuzzy regex of its source, keeps that
shape and only shrinks `allCore`. -/
theorem extend_regex_fuzzy (m : Matcher) (esc : Bool) (l2 : List FAtom)
    (hbad : ∀ s, m.bad_regex = some s → m.patterns.getLast? = some emptyRegex)
    (hslot : m.bad_regex = none → ∀ cr, m.patterns.getLast? = some cr → ∃ l, cr = fuzzyCR l) :
    GoodBad (m.extend_regex (esc, fatomsStr l2)) ∧
    ∀ h, (m.extend_regex (esc, fatomsStr l2)).allCore h = true → m.allCore h = true := by
  cases hlast : m.patterns.getLast? with
  | none =>
    rw [extend_regex_none m _ hlast]
    exact ⟨goodBad_of_empty_slot hbad, fun h hc => hc⟩
  | some lre =>
    cases hbr : m.bad_regex with
    | some s =>
      have hsl := hbad s hbr
      rw [hlast] at hsl
      have hle : lre = emptyRegex := Option.some.inj hsl
      rw [extend_regex_eq_bad m _ lre hlast s hbr]
      cases hmk : makeRegex (s ++ fatomsStr l2) with
      | some regex =>
        constructor
        · intro s2 hs2
          exact Option.noConfusion (show (none : Option (List Char)) = some s2 from hs2)
        · intro h hc
          have hc2 : (m.swOk h && m.ewOk h &&
              (m.patterns.dropLast ++ [regex]).all fun cr => cr.isMatch h) = true := hc
          show (m.swOk h && m.ewOk h && m.patterns.all fun cr => cr.isMatch h) = true
          simp only [Bool.and_eq_true] at hc2 ⊢
          refine ⟨hc2.1, ?_⟩
          rw [hle] at hlast
          exact all_last_impl m.patterns emptyRegex regex h hlast
            (fun _ => emptyRegex_isMatch h) hc2.2
      | none =>
        constructor
        · intro s2 hs2
          refine ⟨emptyRegex, ?_, emptyRegex_isMatch⟩
          show m.patterns.getLast? = some emptyRegex
          rw [hle] at hlast
          exact hlast
        · intro h hc
          exact hc
    | none =>
      obtain ⟨l1, hl1⟩ := hslot hbr lre hlast
      rw [extend_regex_eq_good m _ lre hlast hbr]
      have hmk : makeRegex (lre.src ++ fatomsStr l2) = some (fuzzyCR (l1 ++ l2)) := by
        rw [hl1]
        show makeRegex (fatomsStr l1 ++ fatomsStr l2) = _
        rw [← fatomsStr_append]
        exact makeRegex_fatoms_fuzzyCR _
      rw [hmk]
      constructor
      · intro s2 hs2
        exact Option.noConfusion (show (none : Option (List Char)) = some s2 from hs2)
      · intro h hc
        have hc2 : (m.swOk h && m.ewOk h &&
            (m.patterns.dropLast ++ [fuzzyCR (l1 ++ l2)]).all fun cr => cr.isMatch h) = true := hc
        show (m.swOk h && m.ewOk h && m.patterns.all fun cr => cr.isMatch h) = true
        simp only [Bool.and_eq_true] at hc2 ⊢
        refine ⟨hc2.1, ?_⟩
        refine all_last_impl m.patterns lre (fuzzyCR (l1 ++ l2)) h hlast ?_ hc2.2
        intro hcm
        rw [hl1]
        exact fuzzy_isMatch_narrows l1 l2 h hcm

theorem stepFrag_scope (m : Matcher) (s : PatternScope) (p : List Char) :
    (stepFrag m s p).2 = s ∨ (stepFrag m s p).2 = .change := by
  cases p with
  | nil => left; rfl
  | cons c b =>
    by_cases h1 : c = '<'
    · left; simp [stepFrag, h1]
    by_cases h2 : c = '>'
    · right; simp [stepFrag, h1, h2]
    by_cases h3 : c = '*'
    · left; simp [stepFrag, h1, h2, h3]
    · left; simp [stepFrag, h1, h2, h3]

theorem stepFrag_main (m : Matcher) (s : PatternScope) (p : List Char)
    (hg : GoodBad m) :
    GoodBad (stepFrag m s p).1 ∧
    ((stepFrag m s p).2 = .narrow → s = .narrow ∧
      ∀ h, (stepFrag m s p).1.allCore h = true → m.allCore h = true) := by
  cases p with
  | nil =>
    refine ⟨goodBad_mode _ _ (goodBad_dropBad m), fun hn => ⟨hn, fun h hc => ?_⟩⟩
    exact dropBad_allCore hg h hc
  | cons c b =>
    by_cases h1 : c = '<'
    · have hstep : stepFrag m s (c :: b) =
          ({ (dropBad m).extend_starts_with b with mode := .startsWith }, s) := by
        simp [stepFrag, h1]
      rw [hstep]
      refine ⟨goodBad_mode _ _ (goodBad_of_bad_none ?_), fun hn => ⟨hn, fun h hc => ?_⟩⟩
      · rw [(extend_starts_with_fields _ _).2.2.2.2.1]
        exact dropBad_bad m
      · exact dropBad_allCore hg h (allCore_extend_sw b h hc)
    by_cases h2 : c = '>'
    · have hstep : stepFrag m s (c :: b) =
          ({ (dropBad m).extend_ends_with b with mode := .endsWith }, .change) := by
        simp [stepFrag, h1, h2]
      rw [hstep]
      refine ⟨goodBad_mode _ _ (goodBad_of_bad_none ?_), fun hn => ?_⟩
      · rw [(extend_ends_with_fields _ _).2.2.2.2.1]
        exact dropBad_bad m
      · exact absurd hn (by simp)
    by_cases h3 : c = '*'
    · have hstep : stepFrag m s (c :: b) =
          ({ (dropBad m).add_regex (regex_build false b) with mode := .regex }, s) := by
        simp [stepFrag, h1, h2, h3]
      rw [hstep]
      refine ⟨goodBad_mode _ _ (goodBad_add_regex _ (dropBad_bad m)),
        fun hn => ⟨hn, fun h hc => ?_⟩⟩
      exact dropBad_allCore hg h (allCore_add_regex _ h hc)
    · have hstep : stepFrag m s (c :: b) =
          ({ (dropBad m).add_regex (fuzzy_build false (c :: b)) with
            mode := .fuzzy }, s) := by
        simp [stepFrag, h1, h2, h3]
      rw [hstep]
      refine ⟨goodBad_mode _ _ (goodBad_add_regex _ (dropBad_bad m)),
        fun hn => ⟨hn, fun h hc => ?_⟩⟩
      exact dropBad_allCore hg h (allCore_add_regex _ h hc)

theorem addLoop_change (fs : List (List Char)) :
    ∀ (m : Matcher), (addLoop m .change fs).2 = .change := by
  induction fs with
  | nil => intro m; rfl
  | cons p rest ih =>
    intro m
    show (addLoop (stepFrag m .change p).1 (stepFrag m .change p).2 rest).2 = .change
    rcases stepFrag_scope m .change p with hsc | hsc <;> rw [hsc] <;> exact ih _

theorem addLoop_main (fs : List (List Char)) :
    ∀ (m : Matcher) (s : PatternScope), GoodBad m →
      (addLoop m s fs).2 = .narrow →
      s = .narrow ∧
        ∀ h, (addLoop m s fs).1.allCore h = true → m.allCore h = true := by
  induction fs with
  | nil =>
    intro m s _ hn
    exact ⟨hn, fun h hc => hc⟩
  | cons p rest ih =>
    intro m s hg hn
    have hn' : (addLoop (stepFrag m s p).1 (stepFrag m s p).2 rest).2 = .narrow := hn
    have hs := stepFrag_main m s p hg
    obtain ⟨hr2, himpl2⟩ := ih (stepFrag m s p).1 (stepFrag m s p).2 hs.1 hn'
    obtain ⟨hs2, himpl1⟩ := hs.2 hr2
    refine ⟨hs2, fun h hc => himpl1 h (himpl2 h hc)⟩

theorem add_mode_new (m : Matcher) (hm : m.mode = .new) (t : List Char) :
    m.add t = addLoop { m with text := m.text ++ t } .narrow (splitSpace t) := by
  obtain ⟨pats, sw, ew, md, esc, tx, bad, sk⟩ := m
  simp only [] at hm
  subst hm
  unfold Matcher.add
  rcases hsp : splitSpace t with _ | ⟨f, rest⟩
  · exact absurd hsp (splitSpace_ne_nil t)
  · rfl

theorem add_mode_skip (m : Matcher) (hm : m.mode ≠ .new) (t : List Char)
    (rest : List (List Char)) (hsp : splitSpace t = [] :: rest) :
    m.add t = addLoop { m with text := m.text ++ t } .narrow rest := by
  obtain ⟨pats, sw, ew, md, esc, tx, bad, sk⟩ := m
  unfold Matcher.add
  rw [hsp]
  cases md
  · exact absurd rfl hm
  all_goals simp

theorem add_mode_sw (m : Matcher) (hm : m.mode = .startsWith) (t f : List Char)
    (rest : List (List Char)) (hsp : splitSpace t = f :: rest) (hf : f ≠ []) :
    m.add t = addLoop ({ m with text := m.text ++ t }.extend_starts_with f)
      .narrow rest := by
  obtain ⟨pats, sw, ew, md, esc, tx, bad, sk⟩ := m
  simp only [] at hm
  subst hm
  unfold Matcher.add
  rw [hsp]
  simp [hf]

theorem add_mode_ew (m : Matcher) (hm : m.mode = .endsWith) (t f : List Char)
    (rest : List (List Char)) (hsp : splitSpace t = f :: rest) (hf : f ≠ []) :
    m.add t = addLoop ({ m with text := m.text ++ t }.extend_ends_with f)
      .change rest := by
  obtain ⟨pats, sw, ew, md, esc, tx, bad, sk⟩ := m
  simp only [] at hm
  subst hm
  unfold Matcher.add
  rw [hsp]
  simp [hf]

theorem add_mode_fuzzy (m : Matcher) (hm : m.mode = .fuzzy) (t f : List Char)
    (rest : List (List Char)) (hsp : splitSpace t = f :: rest) (hf : f ≠ []) :
    m.add t = addLoop (({ m with text := m.text ++ t } : Matcher).extend_regex
      (fuzzy_build m.escape f)) .narrow rest := by
  obtain ⟨pats, sw, ew, md, esc, tx, bad, sk⟩ := m
  simp only [] at hm
  subst hm
  unfold Matcher.add
  rw [hsp]
  simp [hf]

theorem add_narrow_allCore (m : Matcher) (t : List Char)
    (hbad : m.bad_regex ≠ none → m.patterns.getLast? = some emptyRegex)
    (hfz : m.mode = .fuzzy → m.bad_regex = none →
      m.patterns.getLast? = none ∨ ∃ l, m.patterns.getLast? = some (fuzzyCR l))
    (hmode : m.mode ≠ .regex ∨ (splitSpace t).head? = some [])
    (hnarrow : (m.add t).2 = .narrow) :
    ∀ h, ((m.add t).1).allCore h = true → m.allCore h = true := by
  intro h hc
  have hbadm : ∀ s, m.bad_regex = some s → m.patterns.getLast? = some emptyRegex :=
    fun s hs => hbad (by rw [hs]; simp)
  have hg0 : GoodBad m := goodBad_of_empty_slot hbadm
  have hg1 : GoodBad ({ m with text := m.text ++ t } : Matcher) := hg0
  cases hm : m.mode
  case new =>
    rw [add_mode_new m hm t] at hnarrow hc
    exact (addLoop_main (splitSpace t) _ .narrow hg1 hnarrow).2 h hc
  case fuzzy =>
    rcases hsp : splitSpace t with _ | ⟨f, rest⟩
    · exact absurd hsp (splitSpace_ne_nil t)
    by_cases hf : f = []
    · subst hf
      rw [add_mode_skip m (by rw [hm]; simp) t rest hsp] at hnarrow hc
      exact (addLoop_main rest _ .narrow hg1 hnarrow).2 h hc
    · rw [add_mode_fuzzy m hm t f rest hsp hf] at hnarrow hc
      obtain ⟨l2, hl2⟩ := fuzzy_build_fatoms f m.escape
      have hpp : fuzzy_build m.escape f = ((fuzzy_build m.escape f).1, fatomsStr l2) := by
        rw [← hl2]
      rw [hpp] at hnarrow hc
      have hslot : m.bad_regex = none → ∀ cr, m.patterns.getLast? = some cr →
          ∃ l, cr = fuzzyCR l := by
        intro hb cr hcr
        rcases hfz hm hb with hnone | ⟨l, hl⟩
        · rw [hnone] at hcr
          exact absurd hcr (by simp)
        · rw [hl] at hcr
          exact ⟨l, (Option.some.inj hcr).symm⟩
      have hext := extend_regex_fuzzy ({ m with text := m.text ++ t } : Matcher)
        ((fuzzy_build m.escape f).1) l2 hbadm hslot
      obtain ⟨hg2, himpl1⟩ := hext
      obtain ⟨_, himpl2⟩ := addLoop_main rest _ .narrow hg2 hnarrow
      exact himpl1 h (himpl2 h hc)
  case regex =>
    have hh : (splitSpace t).head? = some [] := by
      rcases hmode with hne | hh
      · exact absurd hm hne
      · exact hh
    rcases hsp : splitSpace t with _ | ⟨f, rest⟩
    · exact absurd hsp (splitSpace_ne_nil t)
    have hf : f = [] := by rw [hsp] at hh; simpa using hh
    subst hf
    rw [add_mode_skip m (by rw [hm]; simp) t rest hsp] at hnarrow hc
    exact (addLoop_main rest _ .narrow hg1 hnarrow).2 h hc
  case startsWith =>
    rcases hsp : splitSpace t with _ | ⟨f, rest⟩
    · exact absurd hsp (splitSpace_ne_nil t)
    by_cases hf : f = []
    · subst hf
      rw [add_mode_skip m (by rw [hm]; simp) t rest hsp] at hnarrow hc
      exact (addLoop_main rest _ .narrow hg1 hnarrow).2 h hc
    · rw [add_mode_sw m hm t f rest hsp hf] at hnarrow hc
      have hg2 : GoodBad (({ m with text := m.text ++ t } : Matcher).extend_starts_with f) :=
        goodBad_transfer (extend_starts_with_fields _ _).2.2.2.1
          (extend_starts_with_fields _ _).2.2.2.2.1 hg1
      have himpl := (addLoop_main rest _ .narrow hg2 hnarrow).2 h hc
      exact allCore_extend_sw f h himpl
  case endsWith =>
    rcases hsp : splitSpace t with _ | ⟨f, rest⟩
    · exact absurd hsp (splitSpace_ne_nil t)
    by_cases hf : f = []
    · subst hf
      rw [add_mode_skip m (by rw [hm]; simp) t rest hsp] at hnarrow hc
      exact (addLoop_main rest _ .narrow hg1 hnarrow).2 h hc
    · rw [add_mode_ew m hm t f rest hsp hf] at hnarrow
      rw [addLoop_change rest _] at hnarrow
      exact absurd hnarrow (by simp)

/-- C3 amended: a mutation that returns `Narrow` only shrinks the match
set on well-shaped states, as long as the add does not extend a pending
Regex term: whenever a failed regex is pending its slot is the empty
regex pushed when the term failed at creation, an open Fuzzy term's
slot holds the regex compiled from its fuzzy-atom source (both shapes
hold on the states the mutations produce), and either the last term is
not an open Regex term or the added text starts with a space. In
particular an add that extends a pending Fuzzy term narrows. Extending
a pending Regex term (for example with `|x`) can genuinely widen the
match set despite `Narrow`, as can an add that discards a pending
failed extension, whose slot kept the previously compiled regex. -/
theorem c3_narrow_shrinks (m : Matcher) (t : List Char) (h : List Nat)
    (hbad : m.bad_regex ≠ none → m.patterns.getLast? = some emptyRegex)
    (hfz : m.mode = .fuzzy → m.bad_regex = none →
      m.patterns.getLast? = none ∨ ∃ l, m.patterns.getLast? = some (fuzzyCR l))
    (hmode : m.mode ≠ .regex ∨ (splitSpace t).head? = some [])
    (hnarrow : (m.add t).2 = .narrow)
    (hpre : m.all_matches h = false) :
    ((m.add t).1).all_matches h = false := by
  have htext : m.text ≠ [] := by
    intro he
    rw [(text_nil_matches m h he).1] at hpre
    exact absurd hpre (by simp)
  have hcore : m.allCore (m.adjustHay h) = false := by
    unfold Matcher.all_matches at hpre
    exact (Bool.or_eq_false_iff.mp hpre).2
  have htext2 : ((m.add t).1).text.isEmpty = false := by
    rw [add_text]
    cases hx : m.text
    · exact absurd hx htext
    · simp
  have hadj : ((m.add t).1).adjustHay h = m.adjustHay h := by
    unfold Matcher.adjustHay
    rw [add_skip]
  unfold Matcher.all_matches
  rw [htext2, hadj, Bool.false_or]
  cases hcc : ((m.add t).1).allCore (m.adjustHay h)
  · rfl
  · have hup := add_narrow_allCore m t hbad hfz hmode hnarrow (m.adjustHay h) hcc
    rw [hup] at hcore
    exact absurd hcore (by simp)

/-- C3 witness: the add of `b` extends the pending fuzzy term `a` and
narrows — the haystack `z`, rejected before, is still rejected after. -/
theorem c3_narrow_shrinks_witness :
    ((((Matcher.default.add ['a']).1).add ['b']).1).all_matches [122] = false :=
  c3_narrow_shrinks (Matcher.default.add ['a']).1 ['b'] [122]
    (fun hne => absurd (by decide : (Matcher.default.add ['a']).1.bad_regex = none) hne)
    (fun _ _ => Or.inr ⟨[FAtom.fchr 'a'], by decide⟩)
    (Or.inl (by decide))
    (by decide)
    (by decide)
